import Mathlib

/-!
Shallow embedding of the TraeAiCodeReview review-orchestration pipeline
(`src/services/reviewService.ts` and `src/services/aiService.ts`) and proofs
about it.

Conventions of the embedding:
* TypeScript strings are Lean `String`s; where the code walks characters
  (splitting, trimming, substring search, regex-style scanning) we work on
  the underlying `List Char` (`String.data`) with structurally recursive
  scanners that mirror the JavaScript semantics (leftmost, non-overlapping,
  greedy matching; lookbehind evaluated on the original input of a
  `String.replace` pass).
* JavaScript `Record<string, number>` objects are insertion-ordered
  association lists `List (String × Nat)`; property update keeps the key's
  position, a fresh key is appended at the end (JS object semantics).
* `async` functions that can `throw` become `Except String _`.  External
  collaborators that are out of scope of the repository (the git source
  provider `gitService.ts`, the network `fetch`, and the JavaScript
  `JSON.parse` builtin) are passed in as explicit environment functions.
* Timing-only behaviour (rate-limit sleeps, the 500 ms pacing pause,
  timestamps, progress/log callback delivery) has no effect on the returned
  data and is elided; the counters and data flow are kept.
-/

/-! ## Character-level helpers (JavaScript string primitives) -/

/-- JavaScript regex `\s` / `String.prototype.trim` whitespace (ASCII part). -/
def isWS (c : Char) : Bool :=
  c = ' ' || c = '\t' || c = '\n' || c = '\r' || c = '\x0b' || c = '\x0c'

/-- `text.trim()` on a character list: drop whitespace from both ends. -/
def jsTrim (l : List Char) : List Char :=
  ((l.dropWhile isWS).reverse.dropWhile isWS).reverse

/-- JavaScript `content.split(sep)` for a one-character separator:
always returns at least one (possibly empty) piece. -/
def splitOnChar (sep : Char) : List Char → List (List Char)
  | [] => [[]]
  | c :: t =>
    match splitOnChar sep t with
    | [] => [[c]]
    | h :: r => if c = sep then [] :: h :: r else (c :: h) :: r

/-- JavaScript `haystack.includes(needle)` on character lists. -/
def hasSub (needle : List Char) : List Char → Bool
  | [] => needle.isEmpty
  | c :: t => needle.isPrefixOf (c :: t) || hasSub needle t

/-- JavaScript `Array.prototype.slice(start, stop)` for non-negative indices. -/
def jsSlice (l : List α) (start stop : Nat) : List α :=
  (l.take stop).drop start

/-- Lowercase a character list (`text.toLowerCase()`, ASCII behaviour). -/
def lowerL (l : List Char) : List Char := l.map Char.toLower

/-! ## Data model (`aiService.ts` / `reviewService.ts` interfaces) -/

/-- `CodeIssue` from `aiService.ts`.  `type` and `category` are the string
literals of the TypeScript unions; `code` is the triggering source line,
`context` the surrounding lines. -/
structure CodeIssue where
  line : Int
  column : Option Int := none
  type : String
  category : String
  message : String
  suggestion : String
  code : String
  context : List String
  deriving Repr, DecidableEq

/-- `CodeReview` from `aiService.ts`: one per analyzed file. -/
structure CodeReview where
  file : String
  issues : List CodeIssue
  summary : String
  deriving Repr, DecidableEq

/-- `ReviewSummary` from `reviewService.ts`.  The two `Record<string, number>`
tallies are insertion-ordered association lists. -/
structure ReviewSummary where
  totalFiles : Nat
  totalIssues : Nat
  issuesByType : List (String × Nat)
  issuesByCategory : List (String × Nat)
  filesWithIssues : Nat
  deriving Repr, DecidableEq

/-- `ReviewResult` (the session result), restricted to the data-carrying
fields; ids and wall-clock stamps are elided. -/
structure ReviewResult where
  repository : String
  branch : String
  standards : String
  reviews : List CodeReview
  summary : ReviewSummary
  deriving Repr, DecidableEq

/-! ## Heuristic analyzer (`ReviewService.performBasicCodeCheck`) -/

/-- `ReviewService.getContextLines`: `lines.slice(max(0, i-2), min(len, i+3))`
(the default `contextSize = 2`). -/
def getContextLines (lines : List (List Char)) (lineIndex : Nat) : List String :=
  (jsSlice lines (lineIndex - 2) (min lines.length (lineIndex + 3))).map
    fun l => String.mk l

/-- The four per-line detectors of `performBasicCodeCheck`, in source order:
trailing whitespace, line longer than 120 characters, TODO/FIXME marker,
`console.` call not on a `//` line. -/
def lineIssues (lines : List (List Char)) (index : Nat) (line : List Char) :
    List CodeIssue :=
  let ctx := getContextLines lines index
  let codeStr := String.mk line
  (if line.getLast? = some ' ' || line.getLast? = some '\t' then
    [{ line := (index : Int) + 1, type := "style", category := "maintainability",
       message := "行尾存在多余空格或制表符",
       suggestion := "删除行尾的空格和制表符",
       code := codeStr, context := ctx }]
  else []) ++
  (if line.length > 120 then
    [{ line := (index : Int) + 1, type := "warning", category := "readability",
       message := "代码行过长，建议不超过120个字符",
       suggestion := "将长行拆分为多行，提高可读性",
       code := codeStr, context := ctx }]
  else []) ++
  (if hasSub "todo".data (lowerL line) || hasSub "fixme".data (lowerL line) then
    [{ line := (index : Int) + 1, type := "info", category := "maintainability",
       message := "存在TODO/FIXME注释",
       suggestion := "及时处理TODO事项或创建任务跟踪",
       code := codeStr, context := ctx }]
  else []) ++
  (if hasSub "console.".data (lowerL line) && !hasSub "//".data line then
    [{ line := (index : Int) + 1, type := "warning", category := "best-practices",
       message := "代码中包含console语句",
       suggestion := "生产代码中应移除调试用的console语句",
       code := codeStr, context := ctx }]
  else [])

/-- All per-line issues, in file order (`lines.forEach` with index). -/
def perLineIssues (lines : List (List Char)) : List CodeIssue :=
  (lines.enum).flatMap fun p => lineIssues lines p.1 p.2

/-! The whole-file `function\s+\w+|const\s+\w+\s*=\s*\([^)]*\)\s*=>|class\s+\w+`
match counter, as a leftmost, non-overlapping scanner over the content. -/

/-- `\w` of the definition-counting regex. -/
def isWordChar (c : Char) : Bool := c.isAlpha || c.isDigit || c = '_'

/-- Try alternative `function\s+\w+` at the head; return the match length. -/
def matchFunctionAlt (l : List Char) : Option Nat :=
  if "function".data.isPrefixOf l then
    let rest := l.drop 8
    let ws := rest.takeWhile isWS
    if ws.isEmpty then none
    else
      let rest2 := rest.dropWhile isWS
      let w := rest2.takeWhile isWordChar
      if w.isEmpty then none else some (8 + ws.length + w.length)
  else none

/-- Try alternative `const\s+\w+\s*=\s*\([^)]*\)\s*=>` at the head. -/
def matchConstArrowAlt (l : List Char) : Option Nat :=
  if "const".data.isPrefixOf l then
    let r1 := l.drop 5
    let ws1 := r1.takeWhile isWS
    if ws1.isEmpty then none
    else
      let r2 := r1.dropWhile isWS
      let w := r2.takeWhile isWordChar
      if w.isEmpty then none
      else
        let r3 := r2.dropWhile isWordChar
        let ws2 := r3.takeWhile isWS
        let r4 := r3.dropWhile isWS
        match r4 with
        | '=' :: r5 =>
          let ws3 := r5.takeWhile isWS
          let r6 := r5.dropWhile isWS
          match r6 with
          | '(' :: r7 =>
            let inner := r7.takeWhile (fun c => c ≠ ')')
            let r8 := r7.dropWhile (fun c => c ≠ ')')
            match r8 with
            | ')' :: r9 =>
              let ws4 := r9.takeWhile isWS
              let r10 := r9.dropWhile isWS
              match r10 with
              | '=' :: '>' :: _ =>
                some (5 + ws1.length + w.length + ws2.length + 1 + ws3.length +
                      1 + inner.length + 1 + ws4.length + 2)
              | _ => none
            | _ => none
          | _ => none
        | _ => none
  else none

/-- Try alternative `class\s+\w+` at the head. -/
def matchClassAlt (l : List Char) : Option Nat :=
  if "class".data.isPrefixOf l then
    let rest := l.drop 5
    let ws := rest.takeWhile isWS
    if ws.isEmpty then none
    else
      let rest2 := rest.dropWhile isWS
      let w := rest2.takeWhile isWordChar
      if w.isEmpty then none else some (5 + ws.length + w.length)
  else none

/-- First alternative that matches at the head (JS alternation order). -/
def matchDefAlt (l : List Char) : Option Nat :=
  match matchFunctionAlt l with
  | some n => some n
  | none =>
    match matchConstArrowAlt l with
    | some n => some n
    | none => matchClassAlt l

/-- Scanner core for the definition-counting regex, structurally recursive on
a fuel argument (any fuel `≥` the list length gives the scan result). -/
def countDefAux : Nat → List Char → Nat
  | 0, _ => 0
  | _, [] => 0
  | fuel + 1, c :: t =>
    match matchDefAlt (c :: t) with
    | some n => 1 + countDefAux fuel ((c :: t).drop (max n 1))
    | none => countDefAux fuel t

/-- Number of matches of the definition-counting regex
(`content.match(...g)`, leftmost, non-overlapping). -/
def countDefMatches (l : List Char) : Nat := countDefAux l.length l

/-- `ReviewService.performBasicCodeCheck`: per-line detectors, then the
missing-trailing-newline rule, then the too-many-definitions rule. -/
def performBasicCodeCheck (_filePath : String) (content : String)
    (_language : String) : List CodeIssue :=
  let cs := content.data
  let lines := splitOnChar '\n' cs
  perLineIssues lines ++
  (if cs.length > 0 && cs.getLast? ≠ some '\n' then
    [{ line := (lines.length : Int), type := "style", category := "maintainability",
       message := "文件末尾缺少空行",
       suggestion := "在文件末尾添加一个空行",
       code := String.mk (lines.getLastD []),
       context := (lines.drop (lines.length - 2)).map fun l => String.mk l }]
  else []) ++
  (if countDefMatches cs > 10 then
    [{ line := 1, type := "warning", category := "maintainability",
       message := "文件中定义了过多的函数/类",
       suggestion := "考虑将代码拆分到多个文件中，每个文件专注一个功能",
       code := String.mk (lines.headD []),
       context := (lines.take 3).map fun l => String.mk l }]
  else [])

/-- `ReviewService.detectLanguage`: suffix-to-language table on the piece
after the last `.` (JS `split('.').pop()`). -/
def detectLanguage (filePath : String) : String :=
  let ext := String.mk (lowerL ((splitOnChar '.' filePath.data).getLastD []))
  if ext = "js" then "javascript"
  else if ext = "jsx" then "javascript"
  else if ext = "ts" then "typescript"
  else if ext = "tsx" then "typescript"
  else if ext = "py" then "python"
  else if ext = "java" then "java"
  else if ext = "kt" then "kotlin"
  else if ext = "cpp" then "cpp"
  else if ext = "c" then "c"
  else if ext = "cs" then "csharp"
  else if ext = "go" then "go"
  else if ext = "rs" then "rust"
  else if ext = "php" then "php"
  else if ext = "rb" then "ruby"
  else if ext = "swift" then "swift"
  else if ext = "vue" then "vue"
  else if ext = "svelte" then "svelte"
  else "text"

/-! ## Result aggregator (`ReviewService.generateSummary`) -/

/-- `m[k] = (m[k] || 0) + 1` on a JS object: update in place, or append the
fresh key at the end. -/
def tally (m : List (String × Nat)) (k : String) : List (String × Nat) :=
  match m with
  | [] => [(k, 1)]
  | (k', v) :: rest => if k' = k then (k', v + 1) :: rest else (k', v) :: tally rest k

/-- The body of the `reviews.forEach` in `generateSummary`. -/
def summarizeReview (s : ReviewSummary) (r : CodeReview) : ReviewSummary :=
  if r.issues.length > 0 then
    { s with
      filesWithIssues := s.filesWithIssues + 1,
      totalIssues := s.totalIssues + r.issues.length,
      issuesByType := r.issues.foldl (fun m i => tally m i.type) s.issuesByType,
      issuesByCategory :=
        r.issues.foldl (fun m i => tally m i.category) s.issuesByCategory }
  else s

/-- `ReviewService.generateSummary`. -/
def generateSummary (reviews : List CodeReview) : ReviewSummary :=
  reviews.foldl summarizeReview
    { totalFiles := reviews.length, totalIssues := 0, issuesByType := [],
      issuesByCategory := [], filesWithIssues := 0 }

/-! ## Orchestrator (`ReviewService.executeReview` / `analyzeFile`)

The git source provider (`gitService.ts`, external per the design) and the
remote client are passed as an explicit environment; both can throw. -/

/-- `ReviewService.analyzeFile`.  The oversize guard returns before the
heuristic check; the `catch` falls back to the (pure, re-computed) heuristic
result when the remote pass throws. -/
def analyzeFile (ai : String → String → String → String → Except String CodeReview)
    (filePath content language standardsContent : String) : CodeReview :=
  if content.length > 50000 then
    { file := filePath, issues := [], summary := "文件过大，跳过分析" }
  else
    let basicIssues := performBasicCodeCheck filePath content language
    match ai filePath content language standardsContent with
    | .ok aiReview =>
      let allIssues := basicIssues ++ aiReview.issues
      { file := filePath, issues := allIssues,
        summary := "发现" ++ toString allIssues.length ++ "个问题" }
    | .error _ =>
      { file := filePath, issues := basicIssues,
        summary := "基础检查完成，发现" ++ toString basicIssues.length ++
          "个问题 (AI分析失败)" }

/-- The external collaborators of one review session: the file list and
`readFile` of the source provider, and the remote review client (both
fallible). -/
structure SessionEnv where
  files : List String
  read : String → Except String String
  ai : String → String → String → String → Except String CodeReview

/-- The per-file loop of `executeReview`: a read error is caught and becomes
an empty review with a failure note; blank (whitespace-only) content is
skipped without a review; otherwise `analyzeFile` runs (it never throws). -/
def processFiles (env : SessionEnv) (standardsContent : String) :
    List String → List CodeReview
  | [] => []
  | filePath :: rest =>
    match env.read filePath with
    | .error e =>
      { file := filePath, issues := [], summary := "审查失败: " ++ e } ::
        processFiles env standardsContent rest
    | .ok content =>
      if jsTrim content.data = [] then processFiles env standardsContent rest
      else
        analyzeFile env.ai filePath content (detectLanguage filePath)
          standardsContent :: processFiles env standardsContent rest

/-- `ReviewService.executeReview`: an empty file list is a fatal error that is
re-thrown; otherwise the per-file loop runs and the summary is aggregated. -/
def executeReview (env : SessionEnv) (repositoryUrl branch standardsContent : String) :
    Except String ReviewResult :=
  if env.files.length = 0 then .error "未找到代码文件"
  else
    let reviews := processFiles env standardsContent env.files
    .ok { repository := repositoryUrl, branch := branch,
          standards := standardsContent, reviews := reviews,
          summary := generateSummary reviews }

/-- Concrete session reviews used to witness the aggregator invariants. -/
def demoSummaryReviews : List CodeReview :=
  [{ file := "a.ts",
     issues := [{ line := 1, type := "style", category := "maintainability",
                  message := "m", suggestion := "s", code := "c", context := [] },
                { line := 2, type := "warning", category := "readability",
                  message := "m", suggestion := "s", code := "c", context := [] }],
     summary := "发现2个问题" },
   { file := "b.ts", issues := [], summary := "发现0个问题" }]

/-- A 50,001-character file content (one line of `a`s), above the oversize
threshold of `analyzeFile`. -/
def bigContent : String := String.mk (List.replicate 50001 'a')

/-- The long-line issue the heuristic analyzer reports on `bigContent`. -/
def bigLineIssue : CodeIssue :=
  { line := 1, type := "warning", category := "readability",
    message := "代码行过长，建议不超过120个字符",
    suggestion := "将长行拆分为多行，提高可读性",
    code := String.mk (List.replicate 50001 'a'),
    context := getContextLines [List.replicate 50001 'a'] 0 }

/-- A two-file session in which the first file is whitespace-only. -/
def demoEnvSkip : SessionEnv :=
  { files := ["a.ts", "b.ts"],
    read := fun p => if p = "a.ts" then .ok "  " else .ok "let x = 1;\n",
    ai := fun p _ _ _ => .ok { file := p, issues := [], summary := "ok" } }

/-- Three-file session in which the second file throws during remote
delegation and has heuristic findings (a trailing space, and no trailing
newline). -/
def demoEnvC2 : SessionEnv :=
  { files := ["a.js", "b.js", "c.js"],
    read := fun p => if p = "b.js" then .ok "let x = 1; " else .ok "let y = 2;\n",
    ai := fun p _ _ _ =>
      if p = "b.js" then .error "boom"
      else .ok { file := p, issues := [], summary := "ok" } }

/-! ## Remote review client (`aiService.ts`)

`JSON.parse`, `fetch` and the JS `String`/`Number` coercion builtins are
external to the repository; they are modelled by the `JSValue` value domain,
a `fetch` oracle and small coercion functions whose edge behaviour
(documented below) is never exercised by the claims. -/

/-- The JavaScript value domain produced by `JSON.parse`. -/
inductive JSValue where
  | jnull
  | jbool (b : Bool)
  | jnum (n : Int)
  | jstr (s : String)
  | jarr (elems : List JSValue)
  | jobj (fields : List (String × JSValue))

/-- Property lookup on a parsed object (objects from `JSON.parse` have
unique keys, so first match suffices). -/
def jget (fields : List (String × JSValue)) (k : String) : Option JSValue :=
  (fields.find? (fun p => p.1 = k)).map Prod.snd

/-- `x.prop` for a possibly-non-object `x`: property access on primitives
yields `undefined` (`none`); access on `null` throws and is handled by the
caller (`coerceIssue`). -/
def getProp : JSValue → String → Option JSValue
  | .jobj fields, k => jget fields k
  | _, _ => none

/-- JS `Number(v)` where `none` stands for `NaN`.  String conversion is
modelled for whitespace/digit strings only (other strings give `NaN`). -/
def jsToNum : Option JSValue → Option Int
  | none => none
  | some .jnull => some 0
  | some (.jbool b) => some (if b then 1 else 0)
  | some (.jnum n) => some n
  | some (.jstr s) =>
    let t := jsTrim s.data
    if t = [] then some 0
    else if t.all Char.isDigit then
      some ((t.foldl (fun acc c => acc * 10 + (c.toNat - 48)) 0 : Nat) : Int)
    else none
  | some (.jarr _) => none
  | some (.jobj _) => none

/-- JS truthiness of a parsed value. -/
def jsTruthy : JSValue → Bool
  | .jnull => false
  | .jbool b => b
  | .jnum n => n ≠ 0
  | .jstr s => s ≠ ""
  | .jarr _ => true
  | .jobj _ => true

/-- JS `String(v)` (array stringification approximated by the empty string;
the claims only exercise primitive values). -/
def jsToString : JSValue → String
  | .jnull => "null"
  | .jbool b => if b then "true" else "false"
  | .jnum n => toString n
  | .jstr s => s
  | .jarr _ => ""
  | .jobj _ => "[object Object]"

/-- `String(v || dflt)` where `dflt` is a string literal in the source. -/
def jsOrString (v : Option JSValue) (dflt : String) : String :=
  match v with
  | some w => if jsTruthy w then jsToString w else dflt
  | none => dflt

/-- `text.indexOf(c)` on a character list. -/
def firstIdxOf (c : Char) : List Char → Option Nat
  | [] => none
  | d :: t => if d = c then some 0 else (firstIdxOf c t).map (· + 1)

/-- `text.lastIndexOf(c)` on a character list. -/
def lastIdxOf (c : Char) (l : List Char) : Option Nat :=
  (firstIdxOf c l.reverse).map (fun i => l.length - 1 - i)

/-- The bracket-extraction step of `normalizeIssuesFromText`:
`jsonStart = trimmed.indexOf('[')`, `jsonEnd = trimmed.lastIndexOf(']')`,
keep `trimmed.substring(jsonStart, jsonEnd + 1)` when
`jsonStart >= 0 && jsonEnd > jsonStart`. -/
def extractJson (trimmed : List Char) : Option (List Char) :=
  match firstIdxOf '[' trimmed, lastIdxOf ']' trimmed with
  | some s, some e => if e > s then some (jsSlice trimmed s (e + 1)) else none
  | _, _ => none

/-- The single fallback Finding synthesized when normalization cannot parse
the remote response (kind `info`, first line of the original code as the
`code` field, first three lines as context). -/
def unstructuredIssue (code : String) : CodeIssue :=
  { line := 1, type := "info", category := "readability",
    message := "AI返回非结构化内容，已记录文本",
    suggestion := "调整提示词以返回JSON结构",
    code := String.mk ((splitOnChar '\n' code.data).headD []),
    context := ((splitOnChar '\n' code.data).take 3).map (fun l => String.mk l) }

/-- The element coercion of the `arr.map((x: any) => ...)` in
`normalizeIssuesFromText`, with the defensive defaults of the source.
`none` models the `TypeError` thrown by property access on a `null`
element (caught by the surrounding `try`). -/
def coerceIssue (x : JSValue) : Option CodeIssue :=
  match x with
  | .jnull => none
  | _ =>
    some { line := (match jsToNum (getProp x "line") with
                    | some v => if v = 0 then 1 else v
                    | none => 1),
           column := (match getProp x "column" with
                      | some v => if jsTruthy v then jsToNum v else none
                      | none => none),
           type := (match getProp x "type" with
                    | some (.jstr s) =>
                      if s = "error" || s = "warning" || s = "info" || s = "style" then
                        s
                      else "info"
                    | _ => "info"),
           category := (match getProp x "category" with
                        | some (.jstr s) =>
                          if s = "security" || s = "performance" ||
                              s = "maintainability" || s = "readability" ||
                              s = "best-practices" then
                            s
                          else "maintainability"
                        | _ => "maintainability"),
           message := jsOrString (getProp x "message") "问题",
           suggestion := jsOrString (getProp x "suggestion") "",
           code := jsOrString (getProp x "code") "",
           context := (match getProp x "context" with
                       | some (.jarr l) => l.map jsToString
                       | _ => []) }

/-- `AIService.normalizeIssuesFromText`, parameterized by the external
`JSON.parse` (returning `none` when parsing throws). -/
def normalizeIssuesFromText (parseJSON : String → Option JSValue)
    (text _filePath code : String) : List CodeIssue :=
  match extractJson (jsTrim text.data) with
  | some json =>
    match parseJSON (String.mk json) with
    | some (.jarr elems) =>
      match elems.mapM coerceIssue with
      | some issues => issues
      | none => [unstructuredIssue code]
    | _ => [unstructuredIssue code]
  | none => [unstructuredIssue code]

/-! ### Secret masking (`AIService.maskSensitive`)

Five `String.replace(regex, '***')` passes in source order.  Each pass is a
leftmost, non-overlapping scanner; lookbehinds are evaluated on the original
input of the pass (`rev` accumulates the original prefix, reversed). -/

/-- Case-insensitive keyword match (`kw` given lowercase). -/
def ciPrefix (kw : List Char) : List Char → Bool
  | l =>
    match kw, l with
    | [], _ => true
    | _ :: _, [] => false
    | k :: ks, c :: cs => (c.toLower = k) && ciPrefix ks cs

/-- After `\s*` has been dropped: one `[:=]` then `\s*` then the reversed
keyword. -/
def lbStep (kwRev : List Char) : List Char → Bool
  | c :: r2 => (c = ':' || c = '=') && ciPrefix kwRev (r2.dropWhile isWS)
  | [] => false

/-- Lookbehind `name\s*[:=]\s*` read backwards from the match point:
drop `\s*`, one `[:=]`, drop `\s*`, then the reversed keyword. -/
def lbTail (kwRev : List Char) (r : List Char) : Bool :=
  lbStep kwRev (r.dropWhile isWS)

/-- The `[_-]` alternative of `[_-]?` (followed by the reversed name). -/
def altUnd (nameRev : List Char) : List Char → Bool
  | d :: r5 => (d = '_' || d = '-') && ciPrefix nameRev r5
  | [] => false

/-- `[_-]?` then the reversed name: try with the separator, then without. -/
def afterKey (nameRev r4 : List Char) : Bool :=
  altUnd nameRev r4 || ciPrefix nameRev r4

/-- After `\s*` has been dropped: one `[:=]`, `\s*`, `key` reversed, then
`[_-]?` and the reversed name. -/
def lbKeyStep (nameRev : List Char) : List Char → Bool
  | c :: r2 =>
    (c = ':' || c = '=') &&
      (ciPrefix ['y', 'e', 'k'] (r2.dropWhile isWS) &&
        afterKey nameRev ((r2.dropWhile isWS).drop 3))
  | [] => false

/-- Lookbehind `name[_-]?key\s*[:=]\s*` read backwards (`nameRev` is the
reversed, lowercased `name`). -/
def lbKeyPattern (nameRev : List Char) (r : List Char) : Bool :=
  lbKeyStep nameRev (r.dropWhile isWS)

def lbAccess (r : List Char) : Bool := lbKeyPattern ['s', 's', 'e', 'c', 'c', 'a'] r

def lbSecret (r : List Char) : Bool := lbKeyPattern ['t', 'e', 'r', 'c', 'e', 's'] r

def lbToken (r : List Char) : Bool := lbTail ['n', 'e', 'k', 'o', 't'] r

def lbPassword (r : List Char) : Bool :=
  lbTail ['d', 'r', 'o', 'w', 's', 's', 'a', 'p'] r

/-- `[A-Za-z0-9_\-]` (the access/secret key character class). -/
def clsKey (c : Char) : Bool := c.isAlpha || c.isDigit || c = '_' || c = '-'

/-- `[A-Za-z0-9\._\-]` (the token character class). -/
def clsToken (c : Char) : Bool :=
  c.isAlpha || c.isDigit || c = '.' || c = '_' || c = '-'

/-- `[^\s"']` (the password character class). -/
def clsPass (c : Char) : Bool := !(isWS c || c = '"' || c = '\x27')

/-- One lookbehind-replace pass (fuel-structural so it evaluates in the
kernel; any fuel at least the remaining length gives the scan result).
At each position: if the lookbehind holds on the original reversed prefix
and a non-empty class run starts here, emit `***`, record the original run
into `rev`, and continue after the run; otherwise copy one character. -/
def maskLBAux (lb : List Char → Bool) (cls : Char → Bool) :
    Nat → List Char → List Char → List Char
  | 0, _, _ => []
  | _, _, [] => []
  | fuel + 1, rev, c :: rest =>
    if lb rev && cls c then
      '*' :: '*' :: '*' ::
        maskLBAux lb cls fuel ((c :: rest.takeWhile cls).reverse ++ rev)
          (rest.dropWhile cls)
    else
      c :: maskLBAux lb cls fuel (c :: rev) rest

def maskLB (lb : List Char → Bool) (cls : Char → Bool)
    (rev l : List Char) : List Char :=
  maskLBAux lb cls l.length rev l

/-- `[0-9A-Z]`. -/
def isUpperDigit (c : Char) : Bool := c.isDigit || ('A' ≤ c && c ≤ 'Z')

/-- `AKIA[0-9A-Z]{16}` tested at the head of the list: the literal `AKIA`
followed by exactly 16 characters of `[0-9A-Z]`. -/
def akiaTest (l : List Char) : Bool :=
  l.take 4 = ['A', 'K', 'I', 'A'] && ((l.drop 4).take 16).length = 16 &&
    ((l.drop 4).take 16).all isUpperDigit

/-- The `AKIA[0-9A-Z]{16}` replace pass (fuel-structural). -/
def maskAKIAAux : Nat → List Char → List Char
  | 0, _ => []
  | _, [] => []
  | fuel + 1, c :: rest =>
    if akiaTest (c :: rest) then
      '*' :: '*' :: '*' :: maskAKIAAux fuel (rest.drop 19)
    else
      c :: maskAKIAAux fuel rest

def maskAKIA (l : List Char) : List Char := maskAKIAAux l.length l

/-- Pass 1: `/(?<=access[_-]?key\s*[:=]\s*)[A-Za-z0-9_\-]+/gi`. -/
def maskPass1 (l : List Char) : List Char := maskLB lbAccess clsKey [] l

/-- Pass 2: `/(?<=secret[_-]?key\s*[:=]\s*)[A-Za-z0-9_\-]+/gi`. -/
def maskPass2 (l : List Char) : List Char := maskLB lbSecret clsKey [] l

/-- Pass 3: `/(?<=token\s*[:=]\s*)[A-Za-z0-9\._\-]+/gi`. -/
def maskPass3 (l : List Char) : List Char := maskLB lbToken clsToken [] l

/-- Pass 4: `/(?<=password\s*[:=]\s*)[^\s"']+/gi`. -/
def maskPass4 (l : List Char) : List Char := maskLB lbPassword clsPass [] l

/-- The five replace passes of `maskSensitive`, in source order. -/
def maskPipeline (l : List Char) : List Char :=
  maskAKIA (maskPass4 (maskPass3 (maskPass2 (maskPass1 l))))

/-- `AIService.maskSensitive`. -/
def maskSensitive (text : String) : String :=
  String.mk (maskPipeline text.data)

/-- `AIService.buildPrompt` (compliance text bounded to 8,000 characters,
code body to 15,000). -/
def buildPrompt (filePath code language standards : String) : String :=
  let header := "你是代码审查专家。严格依据以下开发规范进行审查，并只返回JSON：\n"
  let std := String.mk (standards.data.take 8000)
  let body := "文件: " ++ filePath ++ "\n语言: " ++ language ++
    "\n请输出如下JSON数组，每项为问题：\x7b line, type, category, message, suggestion, code, context \x7d，且仅返回JSON。"
  let content := "规范:\n" ++ std ++ "\n---\n代码:\n" ++
    String.mk (code.data.take 15000)
  header ++ body ++ "\n" ++ content

/-- The code string handed to prompt construction by `reviewCode`
(source lines 225–226: `maskSensitive` then `buildPrompt`). -/
def promptForReview (filePath code language standards : String) : String :=
  buildPrompt filePath (maskSensitive code) language standards

/-! ### Provider configuration and dispatch (`AIService.reviewCode`) -/

/-- One entry of the provider table in `getProviderConfig`. -/
structure ProviderCfg where
  ptype : String
  urls : List String
  headerAuth : String
  minIntervalMs : Nat
  corsSupported : Bool
  deriving Repr, DecidableEq

/-- `AIService.getProviderConfig`: the static provider table. -/
def getProviderConfig (modelId : String) : Option ProviderCfg :=
  if modelId = "gpt-4" then
    some ⟨"openai", ["https://api.openai.com/v1/chat/completions"],
      "Authorization", 1000, false⟩
  else if modelId = "deepseek-chat" then
    some ⟨"deepseek", ["https://api.deepseek.com/v1/chat/completions"],
      "Authorization", 1000, false⟩
  else if modelId = "claude-3-sonnet" then
    some ⟨"anthropic", ["https://api.anthropic.com/v1/messages"],
      "x-api-key", 1000, false⟩
  else if modelId = "kimi-k2" then
    some ⟨"moonshot", ["https://api.moonshot.cn/v1/chat/completions",
      "https://api.moonshot.ai/v1/chat/completions"], "Authorization", 1000, false⟩
  else if modelId = "doubao-pro" then
    some ⟨"doubao", ["https://api.doubao.com/v1/chat/completions"],
      "Authorization", 1000, false⟩
  else none

/-- `AIModel` from `aiService.ts`. -/
structure AIModel where
  id : String
  name : String
  provider : String
  description : String
  maxTokens : Nat
  supported : Bool
  deriving Repr, DecidableEq

inductive ConnectionMode where
  | auto
  | direct
  | proxy
  deriving Repr, DecidableEq

/-- The mutable client state of `AIService` that affects returned data
(rate-limiter timestamps, request counts and the warned-provider set only
influence timing and log events and are elided). -/
structure AIState where
  apiKey : String
  model : Option AIModel
  connectionMode : ConnectionMode
  proxyUrl : String
  statsSuccess : Nat
  statsFail : Nat

/-- Outcome of one `fetch`: a thrown network error, or an HTTP response with
its `ok` flag, status, error-body text, and `extracted` — the reply text the
source pulls out of the provider-specific JSON envelope
(`json?.choices?.[0]?.message?.content || json?.data || JSON.stringify(json)`
for chat-style, `json?.content?.[0]?.text || JSON.stringify(json)` for
message-style).  The envelope itself is external wire data. -/
inductive FetchOutcome where
  | thrown (msg : String)
  | resp (ok : Bool) (status : Nat) (bodyText : String) (extracted : String)

/-- The `doDirect` closure: try each endpoint candidate in order, remember
the last error, return the first successful payload; after exhausting all
candidates re-throw the last error (or return `''` if there were no
candidates at all). -/
def doDirect (fetch : String → FetchOutcome) :
    Option String → List String → Except String String
  | lastErr, [] =>
    match lastErr with
    | some e => .error e
    | none => .ok ""
  | _lastErr, u :: rest =>
    match fetch u with
    | .thrown m => doDirect fetch (some m) rest
    | .resp ok status _ ext =>
      if ok then .ok ext
      else doDirect fetch (some ("HTTP " ++ toString status)) rest

/-- `this.proxyUrl.replace(/\/$/, '')`: strip one trailing slash. -/
def stripTrailingSlash (s : String) : String :=
  match s.data.getLast? with
  | some '/' => String.mk s.data.dropLast
  | _ => s

def proxyEndpoint (proxyUrl : String) : String :=
  stripTrailingSlash proxyUrl ++ "/v1/chat/completions"

/-- The `doProxy` closure: fail immediately without a configured relay;
otherwise one `fetch` to the relay endpoint, turning a non-ok status into a
thrown error. -/
def doProxy (fetch : String → FetchOutcome) (proxyUrl : String) :
    Except String String :=
  if proxyUrl = "" then .error "未配置代理地址"
  else
    match fetch (proxyEndpoint proxyUrl) with
    | .thrown m => .error m
    | .resp ok status btext ext =>
      if ok then .ok ext
      else .error ("代理HTTP " ++ toString status ++ " · " ++
        String.mk (btext.data.take 200))

/-- The dispatch section of `reviewCode`'s `try` block: produce the raw
response text.  Chat-style providers dispatch per `connectionMode`
(`auto` = direct first, relay fallback only when a relay is configured);
the message-style (anthropic) branch performs a single fetch with no `ok`
check; an unknown provider type leaves `responseText = ''`. -/
def dispatchRequest (fetch : String → FetchOutcome) (st : AIState)
    (cfg : Option ProviderCfg) : Except String String :=
  match cfg with
  | none => .error "未配置的模型提供方"
  | some c =>
    if c.ptype = "openai" || c.ptype = "deepseek" || c.ptype = "moonshot" ||
        c.ptype = "doubao" then
      match st.connectionMode with
      | .direct => doDirect fetch none c.urls
      | .proxy => doProxy fetch st.proxyUrl
      | .auto =>
        match doDirect fetch none c.urls with
        | .ok t => .ok t
        | .error e =>
          if st.proxyUrl ≠ "" then doProxy fetch st.proxyUrl else .error e
    else if c.ptype = "anthropic" then
      match fetch (c.urls.headD "") with
      | .thrown m => .error m
      | .resp _ _ _ ext => .ok ext
    else .ok ""

/-- The single `error`-kind degradation Finding of `reviewCode`'s `catch`. -/
def aiFailIssue (code : String) : CodeIssue :=
  { line := 1, type := "error", category := "maintainability",
    message := "AI调用失败，使用基础检查替代",
    suggestion := "检查API密钥、CORS或网络；或稍后重试",
    code := String.mk ((splitOnChar '\n' code.data).headD []),
    context := ((splitOnChar '\n' code.data).take 3).map (fun l => String.mk l) }

/-- `AIService.reviewCode`.  The missing-credential check throws BEFORE the
`try` block (the error propagates to the caller and no counter moves);
inside the `try`, any dispatch error is converted into the degradation
review and the failure counter is incremented, while a successful dispatch
normalizes the text and increments the success counter.  The prompt built
from the masked code (`promptForReview`) is consumed by the network, which
this model abstracts as the `fetch` oracle. -/
def reviewCode (fetch : String → FetchOutcome)
    (parseJSON : String → Option JSValue) (st : AIState)
    (filePath code _language _standards : String) :
    Except String (CodeReview × AIState) :=
  match st.model with
  | none => .error "请先设置API密钥和选择模型"
  | some m =>
    if st.apiKey = "" then .error "请先设置API密钥和选择模型"
    else
      match dispatchRequest fetch st (getProviderConfig m.id) with
      | .ok responseText =>
        let issues := normalizeIssuesFromText parseJSON responseText filePath code
        .ok ({ file := filePath, issues := issues,
               summary := "审查完成，发现" ++ toString issues.length ++ "个问题" },
             { st with statsSuccess := st.statsSuccess + 1 })
      | .error _ =>
        .ok ({ file := filePath, issues := [aiFailIssue code],
               summary := "AI调用失败，返回降级结果" },
             { st with statsFail := st.statsFail + 1 })

def demoModelGpt : AIModel :=
  ⟨"gpt-4", "GPT-4", "OpenAI", "强大的通用语言模型", 8192, true⟩

/-- Client state used by the C4 witness: credential and model configured,
direct mode, no relay. -/
def demoFailSt : AIState :=
  { apiKey := "k", model := some demoModelGpt, connectionMode := .direct,
    proxyUrl := "", statsSuccess := 0, statsFail := 0 }

/-- The fetch oracle of the C7 witness: the one direct candidate answers 500,
the relay answers an empty JSON array. -/
def demoFetchC7 : String → FetchOutcome := fun u =>
  if u = "https://api.openai.com/v1/chat/completions" then
    .resp false 500 "upstream error" ""
  else if u = "https://relay.example/v1/chat/completions" then
    .resp true 200 "" "[]"
  else .thrown "unknown host"

/-- Client state of the C7 witness: `auto` mode with a configured relay. -/
def demoAutoSt : AIState :=
  { apiKey := "k", model := some demoModelGpt, connectionMode := .auto,
    proxyUrl := "https://relay.example", statsSuccess := 0, statsFail := 0 }

/-! ## Claim C6: idempotence of secret masking

Strategy: relate every replace pass's output to its input by the rewriting
relation `MskR` (on reversed prefixes: some non-empty whitespace-free runs
replaced by `***`).  A lookbehind can never hold across a `*`, so a
lookbehind that holds on an output prefix also holds on the corresponding
original prefix (`star transfer`).  From that: each pass's output contains
no further match of its own pattern (`self-goodness`), later passes preserve
that (`preservation`), and a match-free string is a fixed point of the pass
(`identity`).  Chaining the five passes gives idempotence. -/

/-- Output-side/original-side relation on reversed prefixes: built left to
right, each step either keeps a character or replaces a non-empty,
whitespace-free run by `***`. -/
inductive MskR : List Char → List Char → Prop where
  | nil : MskR [] []
  | keep (c : Char) {o g : List Char} : MskR o g → MskR (c :: o) (c :: g)
  | mask (run : List Char) {o g : List Char} (hne : run ≠ [])
      (hws : ∀ c ∈ run, isWS c = false) (h : MskR o g) :
      MskR ('*' :: '*' :: '*' :: o) (run.reverse ++ g)

/-- No match of the pattern `(lb, cls)` anywhere in `z`, read with the
already-consumed reversed prefix `r`: wherever the lookbehind holds, the
next character is not in the class. -/
def GoodFrom (lb : List Char → Bool) (cls : Char → Bool)
    (r z : List Char) : Prop :=
  ∀ a c b, z = a ++ c :: b → lb (a.reverse ++ r) = true → cls c = false

/-- The password-pattern variant: wherever the lookbehind holds and a class
run starts, that run is exactly `***` (so replacing it changes nothing). -/
def GoodFrom4 (r z : List Char) : Prop :=
  ∀ a c b, z = a ++ c :: b → lbPassword (a.reverse ++ r) = true →
    clsPass c = true → (c :: b).takeWhile clsPass = ['*', '*', '*']

/-- Forward source/output relation for one replace pass: non-empty runs
become `***`, everything else is kept. -/
inductive FMsk : List Char → List Char → Prop where
  | nil : FMsk [] []
  | keep (c : Char) {s t : List Char} : FMsk s t → FMsk (c :: s) (c :: t)
  | mask (run : List Char) {s t : List Char} (hne : run ≠ []) (h : FMsk s t) :
      FMsk (run ++ s) ('*' :: '*' :: '*' :: t)

/-- No AKIA match at any position of `z`. -/
def Good5 (z : List Char) : Prop := ∀ a b, z = a ++ b → akiaTest b = false

/-! ## Aggregator lemmas (claim C1) -/

theorem summarizeReview_totalFiles (s : ReviewSummary) (r : CodeReview) :
    (summarizeReview s r).totalFiles = s.totalFiles := by
  unfold summarizeReview; split <;> rfl

theorem foldl_summarize_totalFiles (rs : List CodeReview) (s : ReviewSummary) :
    (rs.foldl summarizeReview s).totalFiles = s.totalFiles := by
  induction rs generalizing s with
  | nil => rfl
  | cons r rs ih => simp [List.foldl_cons, ih, summarizeReview_totalFiles]

theorem foldl_summarize_totalIssues (rs : List CodeReview) (s : ReviewSummary) :
    (rs.foldl summarizeReview s).totalIssues =
      s.totalIssues + (rs.map (fun r => r.issues.length)).sum := by
  induction rs generalizing s with
  | nil => simp
  | cons r rs ih =>
    simp only [List.foldl_cons, ih, List.map_cons, List.sum_cons]
    unfold summarizeReview
    split
    · simp
      omega
    · rename_i h
      have h0 : r.issues.length = 0 := by omega
      simp [h0]

theorem foldl_summarize_filesWith (rs : List CodeReview) (s : ReviewSummary) :
    (rs.foldl summarizeReview s).filesWithIssues =
      s.filesWithIssues + rs.countP (fun r => !r.issues.isEmpty) := by
  induction rs generalizing s with
  | nil => simp
  | cons r rs ih =>
    simp only [List.foldl_cons, ih, List.countP_cons]
    unfold summarizeReview
    split
    · rename_i h
      have hne : r.issues ≠ [] := List.length_pos.mp h
      simp [hne]
      omega
    · rename_i h
      have he : r.issues = [] := List.length_eq_zero.mp (by omega)
      simp [he]

theorem tally_keys {m : List (String × Nat)} {k k' : String}
    (h : k' ∈ (tally m k).map Prod.fst) : k' = k ∨ k' ∈ m.map Prod.fst := by
  induction m with
  | nil =>
    rw [tally] at h
    simp at h
    exact Or.inl h
  | cons p rest ih =>
    obtain ⟨a, b⟩ := p
    rw [tally] at h
    by_cases hk : a = k
    · rw [if_pos hk] at h
      rw [List.map_cons, List.mem_cons] at h
      rcases h with h | h
      · exact Or.inl (h.trans hk)
      · exact Or.inr (by rw [List.map_cons, List.mem_cons]; exact Or.inr h)
    · rw [if_neg hk] at h
      rw [List.map_cons, List.mem_cons] at h
      rcases h with h | h
      · exact Or.inr (by rw [List.map_cons, List.mem_cons]; exact Or.inl h)
      · rcases ih h with h' | h'
        · exact Or.inl h'
        · exact Or.inr (by rw [List.map_cons, List.mem_cons]; exact Or.inr h')

theorem foldl_tally_keys {f : CodeIssue → String} {issues : List CodeIssue}
    {m : List (String × Nat)} {k : String}
    (h : k ∈ (issues.foldl (fun m i => tally m (f i)) m).map Prod.fst) :
    k ∈ m.map Prod.fst ∨ ∃ i ∈ issues, f i = k := by
  induction issues generalizing m with
  | nil => exact Or.inl h
  | cons i rest ih =>
    rw [List.foldl_cons] at h
    rcases ih h with h' | h'
    · rcases tally_keys h' with h'' | h''
      · exact Or.inr ⟨i, by simp, h''.symm⟩
      · exact Or.inl h''
    · rcases h' with ⟨j, hj, hjk⟩
      exact Or.inr ⟨j, by simp [hj], hjk⟩

theorem foldl_summarize_type_keys (rs : List CodeReview) (s : ReviewSummary)
    {k : String} (h : k ∈ (rs.foldl summarizeReview s).issuesByType.map Prod.fst) :
    k ∈ s.issuesByType.map Prod.fst ∨ ∃ r ∈ rs, ∃ i ∈ r.issues, i.type = k := by
  induction rs generalizing s with
  | nil => exact Or.inl h
  | cons r rest ih =>
    rw [List.foldl_cons] at h
    rcases ih (summarizeReview s r) h with h' | h'
    · unfold summarizeReview at h'
      split at h'
      · simp only at h'
        rcases foldl_tally_keys h' with h'' | h''
        · exact Or.inl h''
        · rcases h'' with ⟨i, hi, hik⟩
          exact Or.inr ⟨r, by simp, i, hi, hik⟩
      · exact Or.inl h'
    · rcases h' with ⟨r', hr', rest'⟩
      exact Or.inr ⟨r', by simp [hr'], rest'⟩

theorem foldl_summarize_category_keys (rs : List CodeReview) (s : ReviewSummary)
    {k : String}
    (h : k ∈ (rs.foldl summarizeReview s).issuesByCategory.map Prod.fst) :
    k ∈ s.issuesByCategory.map Prod.fst ∨ ∃ r ∈ rs, ∃ i ∈ r.issues, i.category = k := by
  induction rs generalizing s with
  | nil => exact Or.inl h
  | cons r rest ih =>
    rw [List.foldl_cons] at h
    rcases ih (summarizeReview s r) h with h' | h'
    · unfold summarizeReview at h'
      split at h'
      · simp only at h'
        rcases foldl_tally_keys h' with h'' | h''
        · exact Or.inl h''
        · rcases h'' with ⟨i, hi, hik⟩
          exact Or.inr ⟨r, by simp, i, hi, hik⟩
      · exact Or.inl h'
    · rcases h' with ⟨r', hr', rest'⟩
      exact Or.inr ⟨r', by simp [hr'], rest'⟩

/-- C1: `generateSummary` satisfies the summary invariants: `totalIssues` is
the sum of the per-review finding counts, `filesWithIssues` counts the
reviews with a non-empty findings list, and the by-kind / by-category tallies
mention only kinds/categories that occur in some review's findings (no
zero-filled keys; every tallied count is positive by construction of
`tally`). -/
theorem generateSummary_invariants (reviews : List CodeReview) :
    (generateSummary reviews).totalFiles = reviews.length ∧
    (generateSummary reviews).totalIssues =
      (reviews.map (fun r => r.issues.length)).sum ∧
    (generateSummary reviews).filesWithIssues =
      reviews.countP (fun r => !r.issues.isEmpty) ∧
    (∀ k ∈ (generateSummary reviews).issuesByType.map Prod.fst,
      ∃ r ∈ reviews, ∃ i ∈ r.issues, i.type = k) ∧
    (∀ k ∈ (generateSummary reviews).issuesByCategory.map Prod.fst,
      ∃ r ∈ reviews, ∃ i ∈ r.issues, i.category = k) := by
  refine ⟨?_, ?_, ?_, ?_, ?_⟩
  · rw [generateSummary, foldl_summarize_totalFiles]
  · rw [generateSummary, foldl_summarize_totalIssues]
    simp
  · rw [generateSummary, foldl_summarize_filesWith]
    simp
  · intro k hk
    rw [generateSummary] at hk
    rcases foldl_summarize_type_keys reviews _ hk with h | h
    · simp at h
    · exact h
  · intro k hk
    rw [generateSummary] at hk
    rcases foldl_summarize_category_keys reviews _ hk with h | h
    · simp at h
    · exact h

/-- Witness for C1 at a concrete review list. -/
theorem generateSummary_invariants_witness :
    (generateSummary demoSummaryReviews).totalIssues = 2 ∧
    (generateSummary demoSummaryReviews).filesWithIssues = 1 ∧
    (∃ r ∈ demoSummaryReviews, ∃ i ∈ r.issues, i.type = "style") := by
  have h := generateSummary_invariants demoSummaryReviews
  refine ⟨h.2.1.trans (by decide), h.2.2.1.trans (by decide), ?_⟩
  exact h.2.2.2.1 "style" (by decide)

/-! ## Helper lemmas for concrete/oversize contents -/

theorem hasSub_append_right {needle b : List Char} (a : List Char)
    (h : hasSub needle b = true) : hasSub needle (a ++ b) = true := by
  induction a with
  | nil => simpa using h
  | cons c t ih =>
    rw [List.cons_append, hasSub]
    simp [ih]

theorem splitOnChar_of_not_mem {sep : Char} {l : List Char} (h : sep ∉ l) :
    splitOnChar sep l = [l] := by
  induction l with
  | nil => rfl
  | cons c t ih =>
    have hc : c ≠ sep := fun hc => h (hc ▸ List.mem_cons_self c t)
    have ht : sep ∉ t := fun ht => h (List.mem_cons_of_mem c ht)
    rw [splitOnChar, ih ht]
    simp [hc]

theorem getLast?_replicate_succ (n : Nat) (a : Char) :
    (List.replicate (n + 1) a).getLast? = some a := by
  induction n with
  | zero => rfl
  | succ m ih =>
    rw [show List.replicate (m + 2) a = a :: a :: List.replicate m a from rfl,
      List.getLast?_cons_cons]
    exact ih

theorem hasSub_replicate_ne {c d : Char} (hne : d ≠ c) (ds : List Char) (n : Nat) :
    hasSub (d :: ds) (List.replicate n c) = false := by
  induction n with
  | zero => rfl
  | succ m ih =>
    rw [List.replicate_succ, hasSub, ih]
    simp [List.isPrefixOf, hne]

theorem countDefAux_replicate_a (fuel n : Nat) :
    countDefAux fuel (List.replicate n 'a') = 0 := by
  induction fuel generalizing n with
  | zero =>
    cases n with
    | zero => rfl
    | succ k =>
      rw [List.replicate_succ]
      rfl
  | succ m ih =>
    cases n with
    | zero => rfl
    | succ k =>
      rw [List.replicate_succ, countDefAux]
      have hm : matchDefAlt ('a' :: List.replicate k 'a') = none := by
        rw [matchDefAlt, matchFunctionAlt, matchConstArrowAlt, matchClassAlt]
        simp [List.isPrefixOf]
      rw [hm]
      exact ih k

theorem bigContent_length : bigContent.length = 50001 := by
  show (List.replicate 50001 'a').length = 50001
  exact List.length_replicate 50001 'a'

theorem bigLineIssue_mem :
    bigLineIssue ∈ perLineIssues [List.replicate 50001 'a'] := by
  have hlen : (List.replicate 50001 'a').length > 120 := by
    rw [List.length_replicate]; omega
  rw [perLineIssues]
  rw [show ([List.replicate 50001 'a'] : List (List Char)).enum =
    [(0, List.replicate 50001 'a')] from rfl]
  simp only [List.flatMap_cons, List.flatMap_nil, List.append_nil]
  simp only [lineIssues, hlen, if_true]
  apply List.mem_append_left
  apply List.mem_append_left
  apply List.mem_append_right
  exact List.mem_singleton.mpr rfl

/-- On the oversize one-line content the heuristic analyzer is not empty
(it reports at least the long-line issue). -/
theorem performBasicCodeCheck_big_ne_nil (f lang : String) :
    performBasicCodeCheck f bigContent lang ≠ [] := by
  have hlines : splitOnChar '\n' bigContent.data = [List.replicate 50001 'a'] := by
    rw [show bigContent.data = List.replicate 50001 'a' from rfl]
    apply splitOnChar_of_not_mem
    intro h
    exact absurd (List.eq_of_mem_replicate h) (by decide)
  intro hcontra
  simp only [performBasicCodeCheck, hlines] at hcontra
  have h1 := (List.append_eq_nil.mp (List.append_eq_nil.mp hcontra).1).1
  have hi := bigLineIssue_mem
  rw [h1] at hi
  exact absurd hi (List.not_mem_nil _)

/-! ## Per-file loop lemmas (claims C2, C5, C8, C10) -/

theorem processFiles_length_le (env : SessionEnv) (std : String) (fs : List String) :
    (processFiles env std fs).length ≤ fs.length := by
  induction fs with
  | nil => simp [processFiles]
  | cons f rest ih =>
    cases hread : env.read f with
    | error e =>
      simp only [processFiles, hread, List.length_cons]
      simpa using ih
    | ok content =>
      by_cases hb : jsTrim content.data = []
      · simp only [processFiles, hread, if_pos hb]
        exact Nat.le_succ_of_le ih
      · simp only [processFiles, hread, if_neg hb, List.length_cons]
        simpa using ih

theorem processFiles_length_lt (env : SessionEnv) (std : String) {fs : List String}
    {f c : String} (hf : f ∈ fs) (hr : env.read f = .ok c)
    (hb : jsTrim c.data = []) : (processFiles env std fs).length < fs.length := by
  induction fs with
  | nil => cases hf
  | cons g rest ih =>
    rcases List.mem_cons.mp hf with rfl | hfr
    · simp only [processFiles, hr, if_pos hb]
      exact Nat.lt_succ_of_le (processFiles_length_le env std rest)
    · cases hread : env.read g with
      | error e =>
        simp only [processFiles, hread, List.length_cons]
        simpa using Nat.succ_lt_succ (ih hfr)
      | ok content =>
        by_cases hbg : jsTrim content.data = []
        · simp only [processFiles, hread, if_pos hbg]
          exact Nat.lt_succ_of_lt (ih hfr)
        · simp only [processFiles, hread, if_neg hbg, List.length_cons]
          simpa using Nat.succ_lt_succ (ih hfr)

theorem processFiles_length_eq (env : SessionEnv) (std : String) {fs : List String}
    (h : ∀ f ∈ fs, ∃ c, env.read f = .ok c ∧ jsTrim c.data ≠ []) :
    (processFiles env std fs).length = fs.length := by
  induction fs with
  | nil => rfl
  | cons g rest ih =>
    rcases h g (List.mem_cons_self g rest) with ⟨c, hc, hcb⟩
    simp only [processFiles, hc, if_neg hcb, List.length_cons]
    have := ih fun f hf => h f (List.mem_cons_of_mem g hf)
    simpa using this

/-- C10: in every produced
session result, `summary.totalFiles` equals the number of `FileReview`s
actually created, and whenever some fetched file's content is
whitespace-only (so it is skipped without creating a review),
`summary.totalFiles` is strictly below the fetched-file count
`env.files.length` — the `totalFiles` figure reported in progress events. -/
theorem blank_files_skipped (env : SessionEnv) (repo branch std : String) :
    (∀ res, executeReview env repo branch std = .ok res →
      res.summary.totalFiles = res.reviews.length) ∧
    (∀ res, executeReview env repo branch std = .ok res →
      ∀ f ∈ env.files, ∀ c, env.read f = .ok c → jsTrim c.data = [] →
        res.summary.totalFiles < env.files.length) := by
  constructor
  · intro res hres
    rw [executeReview] at hres
    split at hres
    · cases hres
    · injection hres with h
      subst h
      exact (generateSummary_invariants _).1
  · intro res hres f hf c hc hb
    rw [executeReview] at hres
    split at hres
    · cases hres
    · injection hres with h
      subst h
      have h1 : (generateSummary (processFiles env std env.files)).totalFiles =
          (processFiles env std env.files).length := (generateSummary_invariants _).1
      simp only [h1]
      exact processFiles_length_lt env std hf hc hb

/-- Witness for C10: the blank file is skipped, so the summary counts one
file while two were fetched. -/
theorem blank_files_skipped_witness :
    ∃ res, executeReview demoEnvSkip "repo" "main" "std" = .ok res ∧
      res.summary.totalFiles = res.reviews.length ∧
      res.summary.totalFiles < demoEnvSkip.files.length := by
  refine ⟨_, rfl, ?_, ?_⟩
  · exact (blank_files_skipped demoEnvSkip "repo" "main" "std").1 _ rfl
  · exact (blank_files_skipped demoEnvSkip "repo" "main" "std").2 _ rfl
      "a.ts" (by decide) "  " rfl (by decide)

/-! ## Claim C2: per-file failure isolation -/

/-- Amended C2: a read-stage exception is caught by the orchestrator loop and
becomes a review with an empty findings list and a failure note; an exception
thrown by the remote pass is caught inside `analyzeFile`, whose fallback
review carries the (re-computed) heuristic findings — not an empty list —
together with a note containing the failure marker `失败`; and a session in
which every file is readable and non-blank still produces one review per
file, so `summary.totalFiles` equals the file count. -/
theorem perFile_failure_isolation (env : SessionEnv) (std : String) :
    (∀ f e rest, env.read f = .error e →
      processFiles env std (f :: rest) =
        { file := f, issues := [], summary := "审查失败: " ++ e } ::
          processFiles env std rest) ∧
    (∀ f content e rest, env.read f = .ok content → jsTrim content.data ≠ [] →
      content.length ≤ 50000 →
      env.ai f content (detectLanguage f) std = .error e →
      processFiles env std (f :: rest) =
        { file := f,
          issues := performBasicCodeCheck f content (detectLanguage f),
          summary := "基础检查完成，发现" ++
            toString (performBasicCodeCheck f content (detectLanguage f)).length ++
            "个问题 (AI分析失败)" } :: processFiles env std rest ∧
      hasSub "失败".data ("基础检查完成，发现" ++
          toString (performBasicCodeCheck f content (detectLanguage f)).length ++
          "个问题 (AI分析失败)").data = true) ∧
    (∀ repo branch res, executeReview env repo branch std = .ok res →
      (∀ f ∈ env.files, ∃ c, env.read f = .ok c ∧ jsTrim c.data ≠ []) →
      res.reviews.length = env.files.length ∧
      res.summary.totalFiles = env.files.length) := by
  refine ⟨?_, ?_, ?_⟩
  · intro f e rest hread
    simp only [processFiles, hread]
  · intro f content e rest hread hblank hsize hai
    constructor
    · simp only [processFiles, hread, if_neg hblank]
      have hsz : ¬ content.length > 50000 := by omega
      simp only [analyzeFile, if_neg hsz, hai]
    · rw [String.data_append, String.data_append]
      apply hasSub_append_right
      decide
  · intro repo branch res hres hfiles
    rw [executeReview] at hres
    split at hres
    · cases hres
    · injection hres with h
      subst h
      refine ⟨processFiles_length_eq env std hfiles, ?_⟩
      exact ((generateSummary_invariants _).1).trans
        (processFiles_length_eq env std hfiles)

/-- Counterexample to C2 as stated: in the three-file session the review for
the file whose remote pass threw carries the failure marker `失败` in its
note but has TWO findings (the heuristic ones), not zero. -/
theorem perFile_remote_failure_counterexample :
    (executeReview demoEnvC2 "repo" "main" "std").map
        (fun res => (res.summary.totalFiles,
          res.reviews.map fun r => (r.issues.length, hasSub "失败".data r.summary.data))) =
      .ok (3, [(0, false), (2, true), (0, false)]) := by
  rfl

/-- Witness for the amended C2 at the concrete three-file session. -/
theorem perFile_failure_isolation_witness :
    (processFiles demoEnvC2 "std" ["b.js"] =
      [{ file := "b.js",
         issues := performBasicCodeCheck "b.js" "let x = 1; " (detectLanguage "b.js"),
         summary := "基础检查完成，发现" ++
            toString (performBasicCodeCheck "b.js" "let x = 1; "
              (detectLanguage "b.js")).length ++ "个问题 (AI分析失败)" }]) ∧
    (∃ res, executeReview demoEnvC2 "repo" "main" "std" = .ok res ∧
      res.reviews.length = 3 ∧ res.summary.totalFiles = 3) := by
  constructor
  · exact ((perFile_failure_isolation demoEnvC2 "std").2.1 "b.js" "let x = 1; "
      "boom" [] rfl (by decide) (by decide) rfl).1
  · refine ⟨_, rfl, ?_⟩
    have := (perFile_failure_isolation demoEnvC2 "std").2.2 "repo" "main" _ rfl ?_
    · exact this
    · intro f hf
      simp only [demoEnvC2, List.mem_cons] at hf
      rcases hf with rfl | rfl | rfl | h
      · exact ⟨"let y = 2;\n", rfl, by decide⟩
      · exact ⟨"let x = 1; ", rfl, by decide⟩
      · exact ⟨"let y = 2;\n", rfl, by decide⟩
      · cases h

/-! ## Claim C5: oversize files -/

/-- Amended C5: a file whose content exceeds 50,000 characters skips BOTH the
remote delegation AND the heuristic analyzer — the oversize guard returns
before `performBasicCodeCheck` runs — so its review has an empty findings
list together with the skip note. -/
theorem oversize_skips_all_analysis
    (ai : String → String → String → String → Except String CodeReview)
    (filePath content language std : String) (h : content.length > 50000) :
    analyzeFile ai filePath content language std =
      { file := filePath, issues := [], summary := "文件过大，跳过分析" } := by
  simp only [analyzeFile, if_pos h]

/-- Witness for the amended C5 at the 50,001-character content. -/
theorem oversize_skips_all_analysis_witness :
    analyzeFile (fun p _ _ _ => .ok { file := p, issues := [], summary := "ok" })
        "big.ts" bigContent "typescript" "std" =
      { file := "big.ts", issues := [], summary := "文件过大，跳过分析" } :=
  oversize_skips_all_analysis _ "big.ts" bigContent "typescript" "std"
    (by rw [bigContent_length]; omega)

/-- Counterexample to C5 as stated: on the oversize content the heuristic
analyzer would report findings (it is non-empty), yet the produced review has
no findings at all — the heuristics did NOT still run. -/
theorem oversize_heuristics_counterexample :
    (analyzeFile (fun _ _ _ _ => .error "unused") "big.ts" bigContent
        "typescript" "std").issues = [] ∧
    performBasicCodeCheck "big.ts" bigContent "typescript" ≠ [] := by
  constructor
  · rw [oversize_skips_all_analysis _ "big.ts" bigContent "typescript" "std"
      (by rw [bigContent_length]; omega)]
  · exact performBasicCodeCheck_big_ne_nil "big.ts" "typescript"

/-! ## Claim C8: merge order of heuristic and remote findings -/

/-- Amended C8: for a file that reaches the analysis path (content within the
50,000-character bound), the review's findings are exactly the list
concatenation of the heuristic findings followed by the remote findings,
each source's internal order preserved; when the remote pass throws, the
remote contribution is empty.  (Oversize files are the exception — their
review has no findings at all, see the C5 correction.) -/
theorem findings_merge_order
    (ai : String → String → String → String → Except String CodeReview)
    (filePath content language std : String) (h : content.length ≤ 50000) :
    (∀ aiRev, ai filePath content language std = .ok aiRev →
      (analyzeFile ai filePath content language std).issues =
        performBasicCodeCheck filePath content language ++ aiRev.issues) ∧
    (∀ e, ai filePath content language std = .error e →
      (analyzeFile ai filePath content language std).issues =
        performBasicCodeCheck filePath content language ++ []) := by
  have hsz : ¬ content.length > 50000 := by omega
  constructor
  · intro aiRev hai
    simp only [analyzeFile, if_neg hsz, hai]
  · intro e hai
    simp only [analyzeFile, if_neg hsz, hai, List.append_nil]

/-- Witness for the amended C8: a file with one heuristic finding and one
remote finding yields the two-element concatenation in that order. -/
theorem findings_merge_order_witness :
    (analyzeFile
        (fun p _ _ _ => .ok
          { file := p,
            issues := [{ line := 1, type := "info", category := "security",
                         message := "m", suggestion := "s", code := "c",
                         context := [] }],
            summary := "ok" })
        "a.js" "let x = 1; " "javascript" "std").issues =
      performBasicCodeCheck "a.js" "let x = 1; " "javascript" ++
        [{ line := 1, type := "info", category := "security", message := "m",
           suggestion := "s", code := "c", context := [] }] :=
  (findings_merge_order _ "a.js" "let x = 1; " "javascript" "std"
    (by decide)).1 _ rfl

/-- Counterexample to C8 as stated ("for every FileReview in a session
result"): the review of an oversize file has an empty findings list, so the
(non-empty) heuristic findings of that file are not a prefix of it — the
findings are not "heuristic findings first, then remote findings". -/
theorem findings_merge_counterexample :
    ¬ (performBasicCodeCheck "big.ts" bigContent "typescript" <+:
        (analyzeFile (fun _ _ _ _ => .error "unused") "big.ts" bigContent
          "typescript" "std").issues) := by
  have hempty : (analyzeFile (fun _ _ _ _ => .error "unused") "big.ts" bigContent
      "typescript" "std").issues = [] := by
    rw [oversize_skips_all_analysis _ "big.ts" bigContent "typescript" "std"
      (by rw [bigContent_length]; omega)]
  rw [hempty]
  intro hpre
  exact performBasicCodeCheck_big_ne_nil "big.ts" "typescript"
    (List.prefix_nil.mp hpre)

/-! ## Claim C9: context windows -/

theorem mem_if_singleton {α : Type} {c : Prop} [Decidable c] {x i : α}
    (h : i ∈ (if c then [x] else [])) : i = x := by
  split at h
  · exact List.mem_singleton.mp h
  · cases h

theorem lineIssues_fields {lines : List (List Char)} {idx : Nat}
    {line : List Char} :
    ∀ i ∈ lineIssues lines idx line,
      i.line = (idx : Int) + 1 ∧ i.context = getContextLines lines idx := by
  intro i hi
  simp only [lineIssues, List.mem_append] at hi
  rcases hi with ((h | h) | h) | h <;>
    (obtain rfl := mem_if_singleton h; exact ⟨rfl, rfl⟩)

theorem perLineIssues_ctx {lines : List (List Char)} :
    ∀ i ∈ perLineIssues lines,
      i.context = getContextLines lines ((i.line - 1).toNat) := by
  intro i hi
  rw [perLineIssues] at hi
  rcases List.mem_flatMap.mp hi with ⟨⟨idx, line⟩, _, hin⟩
  obtain ⟨hline, hctx⟩ := lineIssues_fields i hin
  rw [hctx, hline]
  congr 1
  simp

theorem take_min_three {α : Type} (l : List α) :
    l.take (min l.length 3) = l.take 3 := by
  rcases Nat.le_total l.length 3 with h | h
  · rw [Nat.min_eq_left h, List.take_length, List.take_of_length_le h]
  · rw [Nat.min_eq_right h]

theorem getContextLines_zero (lines : List (List Char)) :
    getContextLines lines 0 = (lines.take 3).map (fun l => String.mk l) := by
  unfold getContextLines jsSlice
  rw [show (0 : Nat) - 2 = 0 from rfl, List.drop_zero,
    show (0 : Nat) + 3 = 3 from rfl, take_min_three]

/-- Amended C9: every Finding of the per-line detectors has the `±2`-line
window (clipped to file bounds) as its context, and so does the
too-many-definitions rule (anchored at line 1, whose clipped window is the
first three lines); the missing-trailing-newline rule is the exception — its
context is the LAST TWO lines, not the three-line clipped window around the
last line. -/
theorem contextLines_window (fp content lang : String) :
    (∀ i ∈ perLineIssues (splitOnChar '\n' content.data),
      i.context = getContextLines (splitOnChar '\n' content.data)
        ((i.line - 1).toNat)) ∧
    (∀ i ∈ performBasicCodeCheck fp content lang,
      i ∈ perLineIssues (splitOnChar '\n' content.data) ∨
      (i.line = ((splitOnChar '\n' content.data).length : Int) ∧
        i.context = ((splitOnChar '\n' content.data).drop
          ((splitOnChar '\n' content.data).length - 2)).map (fun l => String.mk l)) ∨
      (i.line = 1 ∧
        i.context = getContextLines (splitOnChar '\n' content.data) 0)) := by
  constructor
  · exact perLineIssues_ctx
  · intro i hi
    simp only [performBasicCodeCheck, List.mem_append] at hi
    rcases hi with (h | h) | h
    · exact Or.inl h
    · obtain rfl := mem_if_singleton h
      exact Or.inr (Or.inl ⟨rfl, rfl⟩)
    · obtain rfl := mem_if_singleton h
      exact Or.inr (Or.inr ⟨rfl, (getContextLines_zero _).symm⟩)

/-- Witness for the amended C9: the TODO finding on line 1 of a two-line file
has the clipped window (both lines) as its context. -/
theorem contextLines_window_witness :
    ({ line := 1, type := "info", category := "maintainability",
       message := "存在TODO/FIXME注释",
       suggestion := "及时处理TODO事项或创建任务跟踪",
       code := "todo", context := ["todo", "ok"] } : CodeIssue).context =
      getContextLines (splitOnChar '\n' "todo\nok".data) 0 := by
  have h := (contextLines_window "t.ts" "todo\nok" "text").1
    { line := 1, type := "info", category := "maintainability",
      message := "存在TODO/FIXME注释",
      suggestion := "及时处理TODO事项或创建任务跟踪",
      code := "todo", context := ["todo", "ok"] } (by decide)
  simpa using h

/-- Counterexample to C9 as stated: on the three-line file `a\nb\nc` the
missing-trailing-newline Finding (line 3) has context `["b", "c"]` — the last
two lines — while the clipped `±2` window around line 3 is
`["a", "b", "c"]`. -/
theorem contextLines_counterexample :
    ∃ i ∈ performBasicCodeCheck "x.ts" "a\nb\nc" "text",
      i.context ≠ getContextLines (splitOnChar '\n' "a\nb\nc".data)
        ((i.line - 1).toNat) := by
  decide

/-! ## Claim C3: defensive response normalization -/

/-- C3: normalization is total and defensive.  If the trimmed response has no
`[`/`]` pair, or the enclosed text fails to parse, or parses to a non-array,
or an element makes the coercion throw, the result is exactly the one
`info`-kind unstructured Finding (whose `code` field is the first line of the
original content and whose context is the first three lines); if the text
parses as an array, each object is coerced with the defensive defaults:
missing/invalid `category` → `maintainability`, missing `kind` → `info`,
missing `line` → `1`, missing `context` → `[]`. -/
theorem normalize_defensive (parseJSON : String → Option JSValue)
    (text filePath code : String) :
    (extractJson (jsTrim text.data) = none →
      normalizeIssuesFromText parseJSON text filePath code =
        [unstructuredIssue code]) ∧
    (∀ json, extractJson (jsTrim text.data) = some json →
      (parseJSON (String.mk json) = none →
        normalizeIssuesFromText parseJSON text filePath code =
          [unstructuredIssue code]) ∧
      (∀ v, parseJSON (String.mk json) = some v → (∀ elems, v ≠ .jarr elems) →
        normalizeIssuesFromText parseJSON text filePath code =
          [unstructuredIssue code]) ∧
      (∀ elems, parseJSON (String.mk json) = some (.jarr elems) →
        elems.mapM coerceIssue = none →
        normalizeIssuesFromText parseJSON text filePath code =
          [unstructuredIssue code]) ∧
      (∀ elems issues, parseJSON (String.mk json) = some (.jarr elems) →
        elems.mapM coerceIssue = some issues →
        normalizeIssuesFromText parseJSON text filePath code = issues)) ∧
    ((unstructuredIssue code).type = "info" ∧
      (unstructuredIssue code).message = "AI返回非结构化内容，已记录文本" ∧
      (unstructuredIssue code).code =
        String.mk ((splitOnChar '\n' code.data).headD [])) ∧
    (∀ fields, ∃ i, coerceIssue (.jobj fields) = some i ∧
      (jget fields "category" = none → i.category = "maintainability") ∧
      (∀ s, jget fields "category" = some (.jstr s) →
        s ≠ "security" → s ≠ "performance" → s ≠ "maintainability" →
        s ≠ "readability" → s ≠ "best-practices" →
        i.category = "maintainability") ∧
      (jget fields "type" = none → i.type = "info") ∧
      (jget fields "line" = none → i.line = 1) ∧
      (jget fields "context" = none → i.context = [])) := by
  refine ⟨?_, ?_, ⟨rfl, rfl, rfl⟩, ?_⟩
  · intro h
    simp only [normalizeIssuesFromText, h]
  · intro json hj
    refine ⟨?_, ?_, ?_, ?_⟩
    · intro hp
      simp only [normalizeIssuesFromText, hj, hp]
    · intro v hp hne
      simp only [normalizeIssuesFromText, hj, hp]
      cases v with
      | jarr elems => exact absurd rfl (hne elems)
      | jnull => rfl
      | jbool b => rfl
      | jnum n => rfl
      | jstr s => rfl
      | jobj f => rfl
    · intro elems hp hmap
      simp only [normalizeIssuesFromText, hj, hp, hmap]
    · intro elems issues hp hmap
      simp only [normalizeIssuesFromText, hj, hp, hmap]
  · intro fields
    refine ⟨_, rfl, ?_, ?_, ?_, ?_, ?_⟩
    · intro h
      simp only [coerceIssue, getProp, h]
    · intro s h h1 h2 h3 h4 h5
      simp only [coerceIssue, getProp, h, h1, h2, h3, h4, h5]
      simp
    · intro h
      simp only [coerceIssue, getProp, h]
    · intro h
      simp only [coerceIssue, getProp, h, jsToNum]
    · intro h
      simp only [coerceIssue, getProp, h]

/-- Witness for C3: an unstructured response text, and an object with a
`line` field only. -/
theorem normalize_defensive_witness :
    normalizeIssuesFromText (fun _ => none) "no brackets here" "f.ts" "l1\nl2" =
      [unstructuredIssue "l1\nl2"] ∧
    (∃ i, coerceIssue (.jobj [("line", .jnum 7)]) = some i ∧
      i.category = "maintainability" ∧ i.type = "info" ∧ i.context = []) := by
  constructor
  · exact (normalize_defensive (fun _ => none) "no brackets here" "f.ts"
      "l1\nl2").1 rfl
  · obtain ⟨i, hi, hcat, _, htype, _, hctx⟩ :=
      (normalize_defensive (fun _ => none) "x" "f.ts" "c").2.2.2
        [("line", .jnum 7)]
    exact ⟨i, hi, hcat rfl, htype rfl, hctx rfl⟩

/-! ## Claim C4: error containment in `reviewCode` -/

/-- Amended C4: with a credential and a model configured, every error of the
dispatch pipeline (unconfigured provider, all endpoint candidates exhausted,
unreachable relay) is contained: `reviewCode` returns a review whose entire
findings list is the single `error`-kind degradation Finding and increments
the failure counter; on a successful dispatch it normalizes the text and
increments the success counter.  (A missing credential or model instead
throws to the caller BEFORE dispatch, without touching either counter — see
the counterexample.) -/
theorem reviewCode_error_containment (fetch : String → FetchOutcome)
    (parseJSON : String → Option JSValue) (st : AIState) (m : AIModel)
    (filePath code language standards : String)
    (hm : st.model = some m) (hk : ¬ st.apiKey = "") :
    (∀ e, dispatchRequest fetch st (getProviderConfig m.id) = .error e →
      reviewCode fetch parseJSON st filePath code language standards =
        .ok ({ file := filePath, issues := [aiFailIssue code],
               summary := "AI调用失败，返回降级结果" },
             { st with statsFail := st.statsFail + 1 }) ∧
      (aiFailIssue code).type = "error" ∧ [aiFailIssue code].length = 1) ∧
    (∀ t, dispatchRequest fetch st (getProviderConfig m.id) = .ok t →
      reviewCode fetch parseJSON st filePath code language standards =
        .ok ({ file := filePath,
               issues := normalizeIssuesFromText parseJSON t filePath code,
               summary := "审查完成，发现" ++
                 toString (normalizeIssuesFromText parseJSON t filePath code).length ++
                 "个问题" },
             { st with statsSuccess := st.statsSuccess + 1 })) := by
  constructor
  · intro e he
    refine ⟨?_, rfl, rfl⟩
    simp only [reviewCode, hm, if_neg hk, he]
  · intro t ht
    simp only [reviewCode, hm, if_neg hk, ht]

/-- Witness for the amended C4: all endpoint candidates fail with a network
error; the result is the contained degradation review with `statsFail = 1`. -/
theorem reviewCode_error_containment_witness :
    reviewCode (fun _ => .thrown "ECONNREFUSED") (fun _ => none) demoFailSt
        "a.ts" "x" "typescript" "std" =
      .ok ({ file := "a.ts", issues := [aiFailIssue "x"],
             summary := "AI调用失败，返回降级结果" },
           { apiKey := "k", model := some demoModelGpt,
             connectionMode := .direct, proxyUrl := "", statsSuccess := 0,
             statsFail := 1 }) :=
  ((reviewCode_error_containment (fun _ => .thrown "ECONNREFUSED")
    (fun _ => none) demoFailSt demoModelGpt "a.ts" "x" "typescript" "std" rfl
    (by decide)).1 "ECONNREFUSED" rfl).1

/-- Counterexample to C4 as stated: a missing credential does NOT result in a
returned degradation FileReview — `reviewCode` throws before the `try` block,
propagating the error to its caller, and neither counter moves. -/
theorem reviewCode_missing_credential_counterexample :
    reviewCode (fun _ => .thrown "unreached") (fun _ => none)
        { apiKey := "", model := some demoModelGpt, connectionMode := .auto,
          proxyUrl := "", statsSuccess := 0, statsFail := 0 }
        "a.ts" "x" "typescript" "std" = .error "请先设置API密钥和选择模型" := rfl

/-! ## Claim C7: `auto` connection-mode fallback -/

/-- C7: in `auto` mode with a chat-style provider, dispatch first attempts
every direct endpoint candidate; on total direct failure it falls back to the
relay exactly when one is configured (returning the relay's payload, which
`reviewCode` then normalizes into Findings), and otherwise propagates the
direct failure out of the dispatch step. -/
theorem auto_mode_fallback (fetch : String → FetchOutcome)
    (parseJSON : String → Option JSValue) (st : AIState) (cfg : ProviderCfg)
    (hmode : st.connectionMode = .auto)
    (hchat : (cfg.ptype = "openai" || cfg.ptype = "deepseek" ||
      cfg.ptype = "moonshot" || cfg.ptype = "doubao") = true) :
    (∀ e, doDirect fetch none cfg.urls = .error e → ¬ st.proxyUrl = "" →
      dispatchRequest fetch st (some cfg) = doProxy fetch st.proxyUrl) ∧
    (∀ e, doDirect fetch none cfg.urls = .error e → st.proxyUrl = "" →
      dispatchRequest fetch st (some cfg) = .error e) ∧
    (∀ e t m, doDirect fetch none cfg.urls = .error e → ¬ st.proxyUrl = "" →
      doProxy fetch st.proxyUrl = .ok t →
      st.model = some m → getProviderConfig m.id = some cfg →
      ¬ st.apiKey = "" →
      ∀ filePath code language standards,
        reviewCode fetch parseJSON st filePath code language standards =
          .ok ({ file := filePath,
                 issues := normalizeIssuesFromText parseJSON t filePath code,
                 summary := "审查完成，发现" ++
                   toString (normalizeIssuesFromText parseJSON t filePath
                     code).length ++ "个问题" },
               { st with statsSuccess := st.statsSuccess + 1 })) := by
  have hdisp : ∀ e, doDirect fetch none cfg.urls = .error e →
      dispatchRequest fetch st (some cfg) =
        (if ¬ st.proxyUrl = "" then doProxy fetch st.proxyUrl
         else .error e) := by
    intro e he
    simp only [dispatchRequest, if_pos hchat, hmode, he]
  refine ⟨?_, ?_, ?_⟩
  · intro e he hp
    rw [hdisp e he, if_pos hp]
  · intro e he hp
    rw [hdisp e he, if_neg (by simpa using hp)]
  · intro e t m he hp hproxy hm hcfg hk filePath code language standards
    simp only [reviewCode, hm, if_neg hk, hcfg]
    rw [hdisp e he, if_pos hp, hproxy]

/-- Witness for C7: direct dispatch fails on every candidate, the configured
relay is used, and its (empty-array) payload becomes the review's Findings
with the success counter incremented. -/
theorem auto_mode_fallback_witness :
    reviewCode demoFetchC7 (fun _ => some (.jarr [])) demoAutoSt
        "a.ts" "x" "typescript" "std" =
      .ok ({ file := "a.ts", issues := [], summary := "审查完成，发现0个问题" },
           { apiKey := "k", model := some demoModelGpt,
             connectionMode := .auto, proxyUrl := "https://relay.example",
             statsSuccess := 1, statsFail := 0 }) :=
  (auto_mode_fallback demoFetchC7 (fun _ => some (.jarr [])) demoAutoSt
    ⟨"openai", ["https://api.openai.com/v1/chat/completions"],
      "Authorization", 1000, false⟩ rfl rfl).2.2
    "HTTP 500" "[]" demoModelGpt rfl (by decide) rfl rfl rfl (by decide)
    "a.ts" "x" "typescript" "std"

theorem MskR_dropWS {o g : List Char} (h : MskR o g) :
    MskR (o.dropWhile isWS) (g.dropWhile isWS) := by
  induction h with
  | nil => exact MskR.nil
  | keep c h ih =>
    by_cases hc : isWS c = true
    · rw [List.dropWhile_cons_of_pos hc, List.dropWhile_cons_of_pos hc]
      exact ih
    · rw [List.dropWhile_cons_of_neg hc, List.dropWhile_cons_of_neg hc]
      exact MskR.keep c h
  | mask run hne hws h _ =>
    rw [List.dropWhile_cons_of_neg (by decide)]
    rcases List.exists_cons_of_ne_nil (show run.reverse ≠ [] by
      intro hrev
      exact hne (by simpa using congrArg List.reverse hrev)) with ⟨d, ds, hds⟩
    have hdmem : d ∈ run := by
      have : d ∈ run.reverse := by rw [hds]; exact List.mem_cons_self d ds
      simpa using this
    rw [hds, List.cons_append,
      List.dropWhile_cons_of_neg (by simp [hws d hdmem]), ← List.cons_append,
      ← hds]
    exact MskR.mask run hne hws h

theorem ciPrefix_transfer {kw o g : List Char} (h : MskR o g)
    (hstar : '*' ∉ kw) (hci : ciPrefix kw o = true) :
    ciPrefix kw g = true ∧ MskR (o.drop kw.length) (g.drop kw.length) := by
  induction kw generalizing o g with
  | nil => exact ⟨rfl, by simpa using h⟩
  | cons k ks ih =>
    cases h with
    | nil => simp [ciPrefix] at hci
    | keep c h =>
      rw [ciPrefix] at hci
      simp only [Bool.and_eq_true] at hci
      obtain ⟨hk, hrest⟩ := hci
      have := ih h (fun hm => hstar (List.mem_cons_of_mem k hm)) hrest
      refine ⟨?_, by simpa using this.2⟩
      rw [ciPrefix]
      simp [hk, this.1]
    | mask run hne hws h =>
      rw [ciPrefix] at hci
      simp only [Bool.and_eq_true] at hci
      have hk : k = '*' := by
        have := hci.1
        simp only [decide_eq_true_eq] at this
        rw [← this]
        rfl
      exact absurd (hk ▸ List.mem_cons_self k ks) hstar

theorem lbStep_transfer {kwRev o1 g1 : List Char} (h1 : MskR o1 g1)
    (hstar : '*' ∉ kwRev) (hlb : lbStep kwRev o1 = true) :
    lbStep kwRev g1 = true := by
  cases h1 with
  | nil => simp [lbStep] at hlb
  | keep c h2 =>
    rw [lbStep] at hlb
    simp only [Bool.and_eq_true] at hlb
    obtain ⟨hc, hrest⟩ := hlb
    rw [lbStep]
    simp only [Bool.and_eq_true]
    exact ⟨hc, (ciPrefix_transfer (MskR_dropWS h2) hstar hrest).1⟩
  | mask run hne hws h2 =>
    rw [lbStep] at hlb
    simp only [Bool.and_eq_true] at hlb
    have := hlb.1
    simp at this

theorem afterKey_transfer {nameRev o g : List Char} (h : MskR o g)
    (hstar : '*' ∉ nameRev) (ha : afterKey nameRev o = true) :
    afterKey nameRev g = true := by
  rw [afterKey] at ha
  rw [afterKey]
  simp only [Bool.or_eq_true] at ha ⊢
  rcases ha with halt | hdirect
  · cases h with
    | nil => simp [altUnd] at halt
    | keep d h4 =>
      rw [altUnd] at halt
      simp only [Bool.and_eq_true] at halt
      refine Or.inl ?_
      rw [altUnd]
      simp only [Bool.and_eq_true]
      exact ⟨halt.1, (ciPrefix_transfer h4 hstar halt.2).1⟩
    | mask run hne hws h4 =>
      rw [altUnd] at halt
      simp only [Bool.and_eq_true] at halt
      have := halt.1
      simp at this
  · exact Or.inr (ciPrefix_transfer h hstar hdirect).1

theorem lbKeyStep_transfer {nameRev o1 g1 : List Char} (h1 : MskR o1 g1)
    (hstar : '*' ∉ nameRev) (hlb : lbKeyStep nameRev o1 = true) :
    lbKeyStep nameRev g1 = true := by
  cases h1 with
  | nil => simp [lbKeyStep] at hlb
  | keep c h2 =>
    rw [lbKeyStep] at hlb
    simp only [Bool.and_eq_true] at hlb
    obtain ⟨hc, hkey, hafter⟩ := hlb
    have hkeyT := ciPrefix_transfer (MskR_dropWS h2) (by decide) hkey
    rw [lbKeyStep]
    simp only [Bool.and_eq_true]
    exact ⟨hc, hkeyT.1, afterKey_transfer hkeyT.2 hstar hafter⟩
  | mask run hne hws h2 =>
    rw [lbKeyStep] at hlb
    simp only [Bool.and_eq_true] at hlb
    have := hlb.1
    simp at this

theorem lbAccess_transfer {o g : List Char} (h : MskR o g)
    (hlb : lbAccess o = true) : lbAccess g = true :=
  lbKeyStep_transfer (MskR_dropWS h) (by decide) hlb

theorem lbSecret_transfer {o g : List Char} (h : MskR o g)
    (hlb : lbSecret o = true) : lbSecret g = true :=
  lbKeyStep_transfer (MskR_dropWS h) (by decide) hlb

theorem lbToken_transfer {o g : List Char} (h : MskR o g)
    (hlb : lbToken o = true) : lbToken g = true :=
  lbStep_transfer (MskR_dropWS h) (by decide) hlb

theorem lbPassword_transfer {o g : List Char} (h : MskR o g)
    (hlb : lbPassword o = true) : lbPassword g = true :=
  lbStep_transfer (MskR_dropWS h) (by decide) hlb

theorem GoodFrom_shift {lb : List Char → Bool} {cls : Char → Bool}
    {r u v : List Char} (h : GoodFrom lb cls r (u ++ v)) :
    GoodFrom lb cls (u.reverse ++ r) v := by
  intro a c b hsplit hlb
  apply h (u ++ a) c b (by rw [hsplit, List.append_assoc])
  rw [List.reverse_append, List.append_assoc]
  exact hlb

theorem GoodFrom4_shift {r u v : List Char} (h : GoodFrom4 r (u ++ v)) :
    GoodFrom4 (u.reverse ++ r) v := by
  intro a c b hsplit hlb hcls
  apply h (u ++ a) c b (by rw [hsplit, List.append_assoc]) ?_ hcls
  rw [List.reverse_append, List.append_assoc]
  exact hlb

theorem lbStep_star (kw r : List Char) : lbStep kw ('*' :: r) = false := by
  rw [lbStep]
  simp

theorem lbTail_star (kw r : List Char) : lbTail kw ('*' :: r) = false := by
  rw [lbTail, List.dropWhile_cons_of_neg (by decide)]
  exact lbStep_star kw r

theorem lbKeyStep_star (n r : List Char) : lbKeyStep n ('*' :: r) = false := by
  rw [lbKeyStep]
  simp

theorem lbKeyPattern_star (n r : List Char) :
    lbKeyPattern n ('*' :: r) = false := by
  rw [lbKeyPattern, List.dropWhile_cons_of_neg (by decide)]
  exact lbKeyStep_star n r

theorem maskLBAux_nil (lb : List Char → Bool) (cls : Char → Bool)
    (fuel : Nat) (rev : List Char) : maskLBAux lb cls fuel rev [] = [] := by
  cases fuel <;> rfl

theorem maskLBAux_id (lb : List Char → Bool) (cls : Char → Bool) :
    ∀ fuel l rev, l.length ≤ fuel → GoodFrom lb cls rev l →
      maskLBAux lb cls fuel rev l = l := by
  intro fuel
  induction fuel with
  | zero =>
    intro l rev hle _
    rw [List.length_eq_zero.mp (Nat.le_zero.mp hle)]
    rfl
  | succ f ih =>
    intro l rev hle hgood
    cases l with
    | nil => rfl
    | cons c rest =>
      have hcond : (lb rev && cls c) = false := by
        cases hlb : lb rev
        · simp
        · simp only [Bool.true_and]
          exact hgood [] c rest rfl (by simpa using hlb)
      rw [maskLBAux, hcond]
      simp only [Bool.false_eq_true, if_false]
      congr 1
      apply ih rest (c :: rev) (by simpa using hle)
      have := GoodFrom_shift (u := [c]) (v := rest) hgood
      simpa using this

theorem maskLBAux_id4 :
    ∀ fuel l rev, l.length ≤ fuel → GoodFrom4 rev l →
      maskLBAux lbPassword clsPass fuel rev l = l := by
  intro fuel
  induction fuel with
  | zero =>
    intro l rev hle _
    rw [List.length_eq_zero.mp (Nat.le_zero.mp hle)]
    rfl
  | succ f ih =>
    intro l rev hle hgood
    cases l with
    | nil => rfl
    | cons c rest =>
      have hlen : rest.length ≤ f := by simpa using hle
      cases hcond : (lbPassword rev && clsPass c) with
      | false =>
        rw [maskLBAux, hcond]
        simp only [Bool.false_eq_true, if_false]
        congr 1
        apply ih rest (c :: rev) hlen
        have := GoodFrom4_shift (u := [c]) (v := rest) hgood
        simpa using this
      | true =>
        rw [maskLBAux, hcond]
        simp only [if_true]
        have hcond' := hcond
        rw [Bool.and_eq_true] at hcond'
        obtain ⟨hlb, hcls⟩ := hcond'
        have hrun : (c :: rest).takeWhile clsPass = ['*', '*', '*'] :=
          hgood [] c rest rfl (by simpa using hlb) hcls
        rw [List.takeWhile_cons_of_pos hcls] at hrun
        injection hrun with hc htk
        have hsplit2 : rest = ['*', '*'] ++ rest.dropWhile clsPass := by
          conv_lhs => rw [← List.takeWhile_append_dropWhile (p := clsPass) (l := rest)]
          rw [htk]
        have hrec : maskLBAux lbPassword clsPass f
            ((c :: rest.takeWhile clsPass).reverse ++ rev)
            (rest.dropWhile clsPass) = rest.dropWhile clsPass := by
          apply ih _ _ (le_trans (List.dropWhile_sublist clsPass).length_le hlen)
          have hl : (c :: rest) =
              (c :: rest.takeWhile clsPass) ++ rest.dropWhile clsPass := by
            rw [List.cons_append, List.takeWhile_append_dropWhile]
          exact GoodFrom4_shift (u := c :: rest.takeWhile clsPass)
            (v := rest.dropWhile clsPass) (hl ▸ hgood)
        rw [hrec, hc]
        conv_rhs => rw [hsplit2]
        rfl

theorem GoodFrom_nil (lb : List Char → Bool) (cls : Char → Bool)
    (o : List Char) : GoodFrom lb cls o [] := by
  intro a c b h
  exact absurd h.symm (by simp)

theorem maskLBAux_zero (lb : List Char → Bool) (cls : Char → Bool)
    (rev l : List Char) : maskLBAux lb cls 0 rev l = [] := by
  cases l <;> rfl

theorem maskLBAux_self_good (lb : List Char → Bool) (cls : Char → Bool)
    (hstar : cls '*' = false)
    (htrans : ∀ o g, MskR o g → lb o = true → lb g = true)
    (hclsws : ∀ c, cls c = true → isWS c = false) :
    ∀ fuel l rev o, l.length ≤ fuel → MskR o rev →
      GoodFrom lb cls o (maskLBAux lb cls fuel rev l) := by
  intro fuel
  induction fuel with
  | zero =>
    intro l rev o _ _
    rw [maskLBAux_zero]
    exact GoodFrom_nil lb cls o
  | succ f ih =>
    intro l rev o hle hrel
    cases l with
    | nil => exact GoodFrom_nil lb cls o
    | cons c0 rest =>
      have hlen : rest.length ≤ f := by simpa using hle
      cases hcond : (lb rev && cls c0) with
      | true =>
        have hcond' := hcond
        rw [Bool.and_eq_true] at hcond'
        obtain ⟨hlb0, hcls0⟩ := hcond'
        rw [maskLBAux, hcond]
        simp only [if_true]
        have hrel' : MskR ('*' :: '*' :: '*' :: o)
            ((c0 :: rest.takeWhile cls).reverse ++ rev) := by
          apply MskR.mask _ (by simp) ?_ hrel
          intro d hd
          rcases List.mem_cons.mp hd with rfl | hd'
          · exact hclsws d hcls0
          · exact hclsws d (List.mem_takeWhile_imp hd')
        have hrec := ih (rest.dropWhile cls)
          ((c0 :: rest.takeWhile cls).reverse ++ rev) ('*' :: '*' :: '*' :: o)
          (le_trans (List.dropWhile_sublist cls).length_le hlen) hrel'
        intro a c b hsplit hlbo
        match a, hsplit with
        | [], hsplit =>
          cases hsplit
          exact hstar
        | ['*'], hsplit =>
          rw [List.cons_append, List.nil_append] at hsplit
          injection hsplit with _ h2
          cases h2
          exact hstar
        | ['*', '*'], hsplit =>
          injection hsplit with _ h2
          injection h2 with _ h3
          cases h3
          exact hstar
        | '*' :: '*' :: '*' :: a', hsplit =>
          injection hsplit with _ h2
          injection h2 with _ h3
          injection h3 with _ h4
          apply hrec a' c b h4
          have : (('*' :: '*' :: '*' :: a').reverse ++ o) =
              (a'.reverse ++ ('*' :: '*' :: '*' :: o)) := by
            simp
          rw [this] at hlbo
          exact hlbo
        | x :: y :: z :: a', hsplit =>
          injection hsplit with h1 h2
          injection h2 with h2a h2b
          injection h2b with h3a h3b
          subst h1
          subst h2a
          subst h3a
          apply hrec a' c b h3b
          have : ((('*' : Char) :: '*' :: '*' :: a').reverse ++ o) =
              (a'.reverse ++ ('*' :: '*' :: '*' :: o)) := by
            simp
          rw [this] at hlbo
          exact hlbo
      | false =>
        rw [maskLBAux, hcond]
        simp only [Bool.false_eq_true, if_false]
        have hrec := ih rest (c0 :: rev) (c0 :: o) hlen (MskR.keep c0 hrel)
        intro a c b hsplit hlbo
        cases a with
        | nil =>
          rw [List.nil_append] at hsplit
          injection hsplit with h1 h2
          subst h1
          cases hclsc : cls c0
          · rfl
          · exfalso
            have hlbrev : lb rev = true := by
              apply htrans o rev hrel
              simpa using hlbo
            rw [hlbrev, hclsc] at hcond
            simp at hcond
        | cons x a' =>
          rw [List.cons_append] at hsplit
          injection hsplit with h1 h2
          subst h1
          apply hrec a' c b h2
          have : ((c0 :: a').reverse ++ o) = (a'.reverse ++ (c0 :: o)) := by
            simp
          rw [this] at hlbo
          exact hlbo

theorem takeWhile_maskLBAux_dropped (lb : List Char → Bool)
    (cls : Char → Bool) (f : Nat) (rev rest : List Char) :
    (maskLBAux lb cls f rev (rest.dropWhile cls)).takeWhile cls = [] := by
  cases hd : rest.dropWhile cls with
  | nil =>
    rw [maskLBAux_nil]
    rfl
  | cons d t =>
    have hdcls : cls d = false := by
      have h := List.head?_dropWhile_not cls rest
      rw [hd] at h
      simpa using h
    cases f with
    | zero =>
      rw [maskLBAux_zero]
      rfl
    | succ f' =>
      rw [maskLBAux]
      have hcond : (lb rev && cls d) = false := by
        rw [hdcls]
        simp
      rw [hcond]
      simp only [Bool.false_eq_true, if_false]
      exact List.takeWhile_cons_of_neg (by simp [hdcls])

theorem GoodFrom4_nil (o : List Char) : GoodFrom4 o [] := by
  intro a c b h
  exact absurd h.symm (by simp)

theorem maskLBAux_self_good4 :
    ∀ fuel l rev o, l.length ≤ fuel → MskR o rev →
      GoodFrom4 o (maskLBAux lbPassword clsPass fuel rev l) := by
  intro fuel
  induction fuel with
  | zero =>
    intro l rev o _ _
    rw [maskLBAux_zero]
    exact GoodFrom4_nil o
  | succ f ih =>
    intro l rev o hle hrel
    cases l with
    | nil => exact GoodFrom4_nil o
    | cons c0 rest =>
      have hlen : rest.length ≤ f := by simpa using hle
      cases hcond : (lbPassword rev && clsPass c0) with
      | true =>
        have hcond' := hcond
        rw [Bool.and_eq_true] at hcond'
        obtain ⟨hlb0, hcls0⟩ := hcond'
        rw [maskLBAux, hcond]
        simp only [if_true]
        have hrel' : MskR ('*' :: '*' :: '*' :: o)
            ((c0 :: rest.takeWhile clsPass).reverse ++ rev) := by
          apply MskR.mask _ (by simp) ?_ hrel
          intro d hd
          rcases List.mem_cons.mp hd with rfl | hd'
          · have h := hcls0
            simp [clsPass] at h
            exact h.1.1
          · have h := List.mem_takeWhile_imp hd'
            simp [clsPass] at h
            exact h.1.1
        have hrec := ih (rest.dropWhile clsPass)
          ((c0 :: rest.takeWhile clsPass).reverse ++ rev)
          ('*' :: '*' :: '*' :: o)
          (le_trans (List.dropWhile_sublist clsPass).length_le hlen) hrel'
        intro a c b hsplit hlbo hclsc
        match a, hsplit with
        | [], hsplit =>
          cases hsplit
          rw [List.takeWhile_cons_of_pos (by decide),
            List.takeWhile_cons_of_pos (by decide),
            List.takeWhile_cons_of_pos (by decide),
            takeWhile_maskLBAux_dropped]
        | ['*'], hsplit =>
          injection hsplit with _ h2
          cases h2
          exfalso
          have : lbPassword ('*' :: o) = true := by simpa using hlbo
          rw [lbPassword, lbTail_star] at this
          cases this
        | ['*', '*'], hsplit =>
          injection hsplit with _ h2
          injection h2 with _ h3
          cases h3
          exfalso
          have : lbPassword ('*' :: '*' :: o) = true := by simpa using hlbo
          rw [lbPassword, lbTail_star] at this
          cases this
        | x :: y :: z :: a', hsplit =>
          injection hsplit with h1 h2
          injection h2 with h2a h2b
          injection h2b with h3a h3b
          subst h1
          subst h2a
          subst h3a
          apply hrec a' c b h3b ?_ hclsc
          have : ((('*' : Char) :: '*' :: '*' :: a').reverse ++ o) =
              (a'.reverse ++ ('*' :: '*' :: '*' :: o)) := by
            simp
          rw [this] at hlbo
          exact hlbo
      | false =>
        rw [maskLBAux, hcond]
        simp only [Bool.false_eq_true, if_false]
        have hrec := ih rest (c0 :: rev) (c0 :: o) hlen (MskR.keep c0 hrel)
        intro a c b hsplit hlbo hclsc
        cases a with
        | nil =>
          rw [List.nil_append] at hsplit
          injection hsplit with h1 h2
          subst h1
          exfalso
          have hlbrev : lbPassword rev = true := by
            apply lbPassword_transfer hrel
            simpa using hlbo
          rw [hlbrev, hclsc] at hcond
          simp at hcond
        | cons x a' =>
          rw [List.cons_append] at hsplit
          injection hsplit with h1 h2
          subst h1
          apply hrec a' c b h2 ?_ hclsc
          have : ((c0 :: a').reverse ++ o) = (a'.reverse ++ (c0 :: o)) := by
            simp
          rw [this] at hlbo
          exact hlbo

theorem maskLBAux_preserve (lbI : List Char → Bool) (clsI : Char → Bool)
    (lbJ : List Char → Bool) (clsJ : Char → Bool)
    (hstarI : clsI '*' = false)
    (htransI : ∀ o g, MskR o g → lbI o = true → lbI g = true)
    (hclsJws : ∀ c, clsJ c = true → isWS c = false) :
    ∀ fuel l rev o, l.length ≤ fuel → MskR o rev →
      GoodFrom lbI clsI rev l →
      GoodFrom lbI clsI o (maskLBAux lbJ clsJ fuel rev l) := by
  intro fuel
  induction fuel with
  | zero =>
    intro l rev o _ _ _
    rw [maskLBAux_zero]
    exact GoodFrom_nil lbI clsI o
  | succ f ih =>
    intro l rev o hle hrel hgood
    cases l with
    | nil => exact GoodFrom_nil lbI clsI o
    | cons c0 rest =>
      have hlen : rest.length ≤ f := by simpa using hle
      cases hcond : (lbJ rev && clsJ c0) with
      | true =>
        have hcond' := hcond
        rw [Bool.and_eq_true] at hcond'
        obtain ⟨hlb0, hcls0⟩ := hcond'
        rw [maskLBAux, hcond]
        simp only [if_true]
        have hrel' : MskR ('*' :: '*' :: '*' :: o)
            ((c0 :: rest.takeWhile clsJ).reverse ++ rev) := by
          apply MskR.mask _ (by simp) ?_ hrel
          intro d hd
          rcases List.mem_cons.mp hd with rfl | hd'
          · exact hclsJws d hcls0
          · exact hclsJws d (List.mem_takeWhile_imp hd')
        have hgood' : GoodFrom lbI clsI
            ((c0 :: rest.takeWhile clsJ).reverse ++ rev)
            (rest.dropWhile clsJ) := by
          have hl : (c0 :: rest) =
              (c0 :: rest.takeWhile clsJ) ++ rest.dropWhile clsJ := by
            rw [List.cons_append, List.takeWhile_append_dropWhile]
          exact GoodFrom_shift (u := c0 :: rest.takeWhile clsJ)
            (v := rest.dropWhile clsJ) (hl ▸ hgood)
        have hrec := ih (rest.dropWhile clsJ)
          ((c0 :: rest.takeWhile clsJ).reverse ++ rev)
          ('*' :: '*' :: '*' :: o)
          (le_trans (List.dropWhile_sublist clsJ).length_le hlen) hrel' hgood'
        intro a c b hsplit hlbo
        match a, hsplit with
        | [], hsplit =>
          cases hsplit
          exact hstarI
        | ['*'], hsplit =>
          injection hsplit with _ h2
          cases h2
          exact hstarI
        | ['*', '*'], hsplit =>
          injection hsplit with _ h2
          injection h2 with _ h3
          cases h3
          exact hstarI
        | x :: y :: z :: a', hsplit =>
          injection hsplit with h1 h2
          injection h2 with h2a h2b
          injection h2b with h3a h3b
          subst h1
          subst h2a
          subst h3a
          apply hrec a' c b h3b
          have : ((('*' : Char) :: '*' :: '*' :: a').reverse ++ o) =
              (a'.reverse ++ ('*' :: '*' :: '*' :: o)) := by
            simp
          rw [this] at hlbo
          exact hlbo
      | false =>
        rw [maskLBAux, hcond]
        simp only [Bool.false_eq_true, if_false]
        have hgood' : GoodFrom lbI clsI (c0 :: rev) rest := by
          have := GoodFrom_shift (u := [c0]) (v := rest) hgood
          simpa using this
        have hrec := ih rest (c0 :: rev) (c0 :: o) hlen (MskR.keep c0 hrel) hgood'
        intro a c b hsplit hlbo
        cases a with
        | nil =>
          rw [List.nil_append] at hsplit
          injection hsplit with h1 h2
          subst h1
          apply hgood [] c0 rest rfl
          apply htransI o rev hrel
          simpa using hlbo
        | cons x a' =>
          rw [List.cons_append] at hsplit
          injection hsplit with h1 h2
          subst h1
          apply hrec a' c b h2
          have : ((c0 :: a').reverse ++ o) = (a'.reverse ++ (c0 :: o)) := by
            simp
          rw [this] at hlbo
          exact hlbo

theorem maskAKIAAux_nil (fuel : Nat) : maskAKIAAux fuel [] = [] := by
  cases fuel <;> rfl

theorem akiaTest_ne_A {c : Char} (l : List Char) (h : ¬ c = 'A') :
    akiaTest (c :: l) = false := by
  rw [akiaTest]
  simp [List.take_succ_cons, h]

theorem isUpperDigit_not_ws {d : Char} (h : isUpperDigit d = true) :
    isWS d = false := by
  cases hw : isWS d
  · rfl
  · exfalso
    simp [isWS] at hw
    rcases hw with ((((rfl | rfl) | rfl) | rfl) | rfl) | rfl <;>
      simp [isUpperDigit] at h

theorem isUpperDigit_ne_star {d : Char} (h : isUpperDigit d = true) :
    ¬ d = '*' := by
  intro hd
  subst hd
  simp [isUpperDigit] at h

/-- Facts about a matched AKIA run `c :: rest.take 19`: the head is `A`, the
run is whitespace-free and star-free, and `rest` is long enough. -/
theorem akiaTest_run_facts {c : Char} {rest : List Char}
    (h : akiaTest (c :: rest) = true) :
    c = 'A' ∧ (∀ d ∈ c :: rest.take 19, isWS d = false) ∧
      (∀ d ∈ c :: rest.take 19, ¬ d = '*') := by
  rw [akiaTest] at h
  rw [show (c :: rest).drop 4 = rest.drop 3 from rfl,
    show (c :: rest).take 4 = c :: rest.take 3 from rfl] at h
  simp only [Bool.and_eq_true, decide_eq_true_eq] at h
  obtain ⟨⟨htake, hlen⟩, hall⟩ := h
  injection htake with hc htail
  have hrlen : 16 ≤ (rest.drop 3).length := by
    rw [List.length_take] at hlen
    omega
  have h19 : rest.take 19 = rest.take 3 ++ (rest.drop 3).take 16 := by
    conv_lhs => rw [← List.take_append_drop 3 rest]
    rw [List.take_append_eq_append_take, List.take_take]
    have hl3 : (rest.take 3).length = 3 := by
      rw [List.length_take]
      rw [List.length_drop] at hrlen
      omega
    rw [hl3]
    rfl
  have hdig : ∀ d ∈ (rest.drop 3).take 16, isUpperDigit d = true := by
    intro d hd
    exact List.all_eq_true.mp hall d hd
  refine ⟨hc, ?_, ?_⟩
  · intro d hd
    rcases List.mem_cons.mp hd with rfl | hd'
    · rw [hc]
      rfl
    · rw [h19] at hd'
      rcases List.mem_append.mp hd' with h3 | h16
      · rw [htail] at h3
        simp at h3
        rcases h3 with rfl | rfl | rfl <;> rfl
      · exact isUpperDigit_not_ws (hdig d h16)
  · intro d hd
    rcases List.mem_cons.mp hd with rfl | hd'
    · rw [hc]
      decide
    · rw [h19] at hd'
      rcases List.mem_append.mp hd' with h3 | h16
      · rw [htail] at h3
        simp at h3
        rcases h3 with rfl | rfl | rfl <;> decide
      · exact isUpperDigit_ne_star (hdig d h16)

theorem maskAKIAAux_FMsk : ∀ fuel l, l.length ≤ fuel →
    FMsk l (maskAKIAAux fuel l) := by
  intro fuel
  induction fuel with
  | zero =>
    intro l hle
    rw [List.length_eq_zero.mp (Nat.le_zero.mp hle), maskAKIAAux_nil]
    exact FMsk.nil
  | succ f ih =>
    intro l hle
    cases l with
    | nil =>
      rw [maskAKIAAux_nil]
      exact FMsk.nil
    | cons c rest =>
      have hlen : rest.length ≤ f := by simpa using hle
      cases ht : akiaTest (c :: rest) with
      | true =>
        rw [maskAKIAAux, ht]
        simp only [if_true]
        have hstep : c :: rest = (c :: rest.take 19) ++ rest.drop 19 := by
          rw [List.cons_append, List.take_append_drop]
        conv_lhs => rw [hstep]
        exact FMsk.mask _ (by simp)
          (ih (rest.drop 19)
            (le_trans (by rw [List.length_drop]; omega) hlen))
      | false =>
        rw [maskAKIAAux, ht]
        simp only [Bool.false_eq_true, if_false]
        exact FMsk.keep c (ih rest hlen)

theorem FMsk_take_eq {s t : List Char} (h : FMsk s t) :
    ∀ n, (∀ d ∈ t.take n, ¬ d = '*') → t.take n = s.take n := by
  induction h with
  | nil => intro n _; rfl
  | keep c h ih =>
    intro n hstar
    cases n with
    | zero => rfl
    | succ m =>
      rw [List.take_succ_cons, List.take_succ_cons]
      congr 1
      apply ih m
      intro d hd
      exact hstar d (by rw [List.take_succ_cons]; exact List.mem_cons_of_mem c hd)
  | mask run hne h ih =>
    intro n hstar
    cases n with
    | zero => rfl
    | succ m =>
      exfalso
      apply hstar '*' ?_ rfl
      rw [List.take_succ_cons]
      exact List.mem_cons_self _ _

theorem akiaTest_congr {x y : List Char} (c : Char)
    (h : x.take 19 = y.take 19) : akiaTest (c :: x) = akiaTest (c :: y) := by
  rw [akiaTest, akiaTest,
    show (c :: x).drop 4 = x.drop 3 from rfl,
    show (c :: y).drop 4 = y.drop 3 from rfl,
    show (c :: x).take 4 = c :: x.take 3 from rfl,
    show (c :: y).take 4 = c :: y.take 3 from rfl]
  have h3 : x.take 3 = y.take 3 := by
    have := congrArg (List.take 3) h
    rwa [List.take_take, List.take_take] at this
  have h16 : (x.drop 3).take 16 = (y.drop 3).take 16 := by
    rw [List.take_drop, List.take_drop]
    exact congrArg (List.drop 3) h
  rw [h3, h16]

theorem Good5_nil : Good5 [] := by
  intro a b h
  have hb : b = [] := (List.append_eq_nil.mp h.symm).2
  rw [hb]
  rfl

theorem Good5_cons {c : Char} {t : List Char}
    (hc : akiaTest (c :: t) = false) (ht : Good5 t) : Good5 (c :: t) := by
  intro a b h
  cases a with
  | nil =>
    rw [List.nil_append] at h
    rw [← h]
    exact hc
  | cons x a' =>
    rw [List.cons_append] at h
    injection h with _ h2
    exact ht a' b h2

theorem maskAKIAAux_self_good : ∀ fuel l, l.length ≤ fuel →
    Good5 (maskAKIAAux fuel l) := by
  intro fuel
  induction fuel with
  | zero =>
    intro l hle
    rw [List.length_eq_zero.mp (Nat.le_zero.mp hle), maskAKIAAux_nil]
    exact Good5_nil
  | succ f ih =>
    intro l hle
    cases l with
    | nil =>
      rw [maskAKIAAux_nil]
      exact Good5_nil
    | cons c rest =>
      have hlen : rest.length ≤ f := by simpa using hle
      cases ht : akiaTest (c :: rest) with
      | true =>
        rw [maskAKIAAux, ht]
        simp only [if_true]
        have hdrop : (rest.drop 19).length ≤ f :=
          le_trans (by rw [List.length_drop]; omega) hlen
        exact Good5_cons (akiaTest_ne_A _ (by decide))
          (Good5_cons (akiaTest_ne_A _ (by decide))
            (Good5_cons (akiaTest_ne_A _ (by decide)) (ih _ hdrop)))
      | false =>
        rw [maskAKIAAux, ht]
        simp only [Bool.false_eq_true, if_false]
        apply Good5_cons ?_ (ih rest hlen)
        cases hout : akiaTest (c :: maskAKIAAux f rest) with
        | false => rfl
        | true =>
          exfalso
          have hstars : ∀ d ∈ (maskAKIAAux f rest).take 19, ¬ d = '*' := by
            intro d hd
            have hmem : d ∈ c :: (maskAKIAAux f rest).take 19 :=
              List.mem_cons_of_mem c hd
            exact (akiaTest_run_facts hout).2.2 d hmem
          have heq : (maskAKIAAux f rest).take 19 = rest.take 19 :=
            FMsk_take_eq (maskAKIAAux_FMsk f rest hlen) 19 hstars
          rw [akiaTest_congr c heq, ht] at hout
          cases hout

theorem maskAKIAAux_id : ∀ fuel l, l.length ≤ fuel → Good5 l →
    maskAKIAAux fuel l = l := by
  intro fuel
  induction fuel with
  | zero =>
    intro l hle _
    rw [List.length_eq_zero.mp (Nat.le_zero.mp hle), maskAKIAAux_nil]
  | succ f ih =>
    intro l hle hgood
    cases l with
    | nil => rw [maskAKIAAux_nil]
    | cons c rest =>
      have hlen : rest.length ≤ f := by simpa using hle
      have hc : akiaTest (c :: rest) = false := hgood [] (c :: rest) rfl
      rw [maskAKIAAux, hc]
      simp only [Bool.false_eq_true, if_false]
      congr 1
      apply ih rest hlen
      intro a b h
      exact hgood (c :: a) b (by rw [h, List.cons_append])

theorem maskAKIAAux_preserve (lbI : List Char → Bool) (clsI : Char → Bool)
    (hstarI : clsI '*' = false)
    (htransI : ∀ o g, MskR o g → lbI o = true → lbI g = true) :
    ∀ fuel l o g, l.length ≤ fuel → MskR o g → GoodFrom lbI clsI g l →
      GoodFrom lbI clsI o (maskAKIAAux fuel l) := by
  intro fuel
  induction fuel with
  | zero =>
    intro l o g hle _ _
    rw [List.length_eq_zero.mp (Nat.le_zero.mp hle), maskAKIAAux_nil]
    exact GoodFrom_nil lbI clsI o
  | succ f ih =>
    intro l o g hle hrel hgood
    cases l with
    | nil =>
      rw [maskAKIAAux_nil]
      exact GoodFrom_nil lbI clsI o
    | cons c0 rest =>
      have hlen : rest.length ≤ f := by simpa using hle
      cases ht : akiaTest (c0 :: rest) with
      | true =>
        rw [maskAKIAAux, ht]
        simp only [if_true]
        obtain ⟨hcA, hws, _⟩ := akiaTest_run_facts ht
        have hrel' : MskR ('*' :: '*' :: '*' :: o)
            ((c0 :: rest.take 19).reverse ++ g) :=
          MskR.mask _ (by simp) hws hrel
        have hgood' : GoodFrom lbI clsI ((c0 :: rest.take 19).reverse ++ g)
            (rest.drop 19) := by
          have hl : (c0 :: rest) = (c0 :: rest.take 19) ++ rest.drop 19 := by
            rw [List.cons_append, List.take_append_drop]
          exact GoodFrom_shift (u := c0 :: rest.take 19)
            (v := rest.drop 19) (hl ▸ hgood)
        have hrec := ih (rest.drop 19) ('*' :: '*' :: '*' :: o)
          ((c0 :: rest.take 19).reverse ++ g)
          (le_trans (by rw [List.length_drop]; omega) hlen) hrel' hgood'
        intro a c b hsplit hlbo
        match a, hsplit with
        | [], hsplit =>
          cases hsplit
          exact hstarI
        | ['*'], hsplit =>
          injection hsplit with _ h2
          cases h2
          exact hstarI
        | ['*', '*'], hsplit =>
          injection hsplit with _ h2
          injection h2 with _ h3
          cases h3
          exact hstarI
        | x :: y :: z :: a', hsplit =>
          injection hsplit with h1 h2
          injection h2 with h2a h2b
          injection h2b with h3a h3b
          subst h1
          subst h2a
          subst h3a
          apply hrec a' c b h3b
          have : ((('*' : Char) :: '*' :: '*' :: a').reverse ++ o) =
              (a'.reverse ++ ('*' :: '*' :: '*' :: o)) := by
            simp
          rw [this] at hlbo
          exact hlbo
      | false =>
        rw [maskAKIAAux, ht]
        simp only [Bool.false_eq_true, if_false]
        have hgood' : GoodFrom lbI clsI (c0 :: g) rest := by
          have := GoodFrom_shift (u := [c0]) (v := rest) hgood
          simpa using this
        have hrec := ih rest (c0 :: o) (c0 :: g) hlen (MskR.keep c0 hrel) hgood'
        intro a c b hsplit hlbo
        cases a with
        | nil =>
          rw [List.nil_append] at hsplit
          injection hsplit with h1 h2
          subst h1
          apply hgood [] c0 rest rfl
          apply htransI o g hrel
          simpa using hlbo
        | cons x a' =>
          rw [List.cons_append] at hsplit
          injection hsplit with h1 h2
          subst h1
          apply hrec a' c b h2
          have : ((c0 :: a').reverse ++ o) = (a'.reverse ++ (c0 :: o)) := by
            simp
          rw [this] at hlbo
          exact hlbo

theorem takeWhile_maskAKIAAux_of_nil :
    ∀ f l, l.takeWhile clsPass = [] →
      (maskAKIAAux f l).takeWhile clsPass = [] := by
  intro f l h
  cases l with
  | nil =>
    rw [maskAKIAAux_nil]
    rfl
  | cons d t =>
    have hd : clsPass d = false := by
      cases hdc : clsPass d
      · rfl
      · rw [List.takeWhile_cons_of_pos hdc] at h
        cases h
    have hdA : ¬ d = 'A' := by
      intro hda
      rw [hda] at hd
      cases hd
    cases f with
    | zero => rfl
    | succ f' =>
      rw [maskAKIAAux, akiaTest_ne_A t hdA]
      simp only [Bool.false_eq_true, if_false]
      exact List.takeWhile_cons_of_neg (by simp [hd])

theorem maskAKIAAux_preserve4 :
    ∀ fuel l o g, l.length ≤ fuel → MskR o g → GoodFrom4 g l →
      GoodFrom4 o (maskAKIAAux fuel l) := by
  intro fuel
  induction fuel with
  | zero =>
    intro l o g hle _ _
    rw [List.length_eq_zero.mp (Nat.le_zero.mp hle), maskAKIAAux_nil]
    exact GoodFrom4_nil o
  | succ f ih =>
    intro l o g hle hrel hgood
    cases l with
    | nil =>
      rw [maskAKIAAux_nil]
      exact GoodFrom4_nil o
    | cons c0 rest =>
      have hlen : rest.length ≤ f := by simpa using hle
      cases ht : akiaTest (c0 :: rest) with
      | true =>
        rw [maskAKIAAux, ht]
        simp only [if_true]
        obtain ⟨hcA, hws, _⟩ := akiaTest_run_facts ht
        have hrel' : MskR ('*' :: '*' :: '*' :: o)
            ((c0 :: rest.take 19).reverse ++ g) :=
          MskR.mask _ (by simp) hws hrel
        have hgood' : GoodFrom4 ((c0 :: rest.take 19).reverse ++ g)
            (rest.drop 19) := by
          have hl : (c0 :: rest) = (c0 :: rest.take 19) ++ rest.drop 19 := by
            rw [List.cons_append, List.take_append_drop]
          exact GoodFrom4_shift (u := c0 :: rest.take 19)
            (v := rest.drop 19) (hl ▸ hgood)
        have hrec := ih (rest.drop 19) ('*' :: '*' :: '*' :: o)
          ((c0 :: rest.take 19).reverse ++ g)
          (le_trans (by rw [List.length_drop]; omega) hlen) hrel' hgood'
        intro a c b hsplit hlbo hclsc
        match a, hsplit with
        | [], hsplit =>
          cases hsplit
          exfalso
          have hlbg : lbPassword g = true := by
            apply lbPassword_transfer hrel
            simpa using hlbo
          have := hgood [] c0 rest rfl (by simpa using hlbg)
            (by rw [hcA]; decide)
          rw [List.takeWhile_cons_of_pos (by rw [hcA]; decide)] at this
          injection this with hca _
          rw [hcA] at hca
          cases hca
        | ['*'], hsplit =>
          injection hsplit with _ h2
          cases h2
          exfalso
          have : lbPassword ('*' :: o) = true := by simpa using hlbo
          rw [lbPassword, lbTail_star] at this
          cases this
        | ['*', '*'], hsplit =>
          injection hsplit with _ h2
          injection h2 with _ h3
          cases h3
          exfalso
          have : lbPassword ('*' :: '*' :: o) = true := by simpa using hlbo
          rw [lbPassword, lbTail_star] at this
          cases this
        | x :: y :: z :: a', hsplit =>
          injection hsplit with h1 h2
          injection h2 with h2a h2b
          injection h2b with h3a h3b
          subst h1
          subst h2a
          subst h3a
          apply hrec a' c b h3b ?_ hclsc
          have : ((('*' : Char) :: '*' :: '*' :: a').reverse ++ o) =
              (a'.reverse ++ ('*' :: '*' :: '*' :: o)) := by
            simp
          rw [this] at hlbo
          exact hlbo
      | false =>
        rw [maskAKIAAux, ht]
        simp only [Bool.false_eq_true, if_false]
        have hgood' : GoodFrom4 (c0 :: g) rest := by
          have := GoodFrom4_shift (u := [c0]) (v := rest) hgood
          simpa using this
        have hrec := ih rest (c0 :: o) (c0 :: g) hlen (MskR.keep c0 hrel) hgood'
        intro a c b hsplit hlbo hclsc
        cases a with
        | nil =>
          rw [List.nil_append] at hsplit
          injection hsplit with h1 h2
          subst h1
          have hlbg : lbPassword g = true := by
            apply lbPassword_transfer hrel
            simpa using hlbo
          have hsrc := hgood [] c0 rest rfl (by simpa using hlbg) hclsc
          rw [List.takeWhile_cons_of_pos hclsc] at hsrc
          injection hsrc with hc0 htk
          have hrest : ∃ t2, rest = '*' :: '*' :: t2 ∧
              t2.takeWhile clsPass = [] := by
            cases rest with
            | nil => cases htk
            | cons r1 t1 =>
              cases hr1 : clsPass r1 with
              | false =>
                rw [List.takeWhile_cons_of_neg (by simp [hr1])] at htk
                cases htk
              | true =>
                rw [List.takeWhile_cons_of_pos hr1] at htk
                injection htk with hr1e htk2
                cases t1 with
                | nil => cases htk2
                | cons r2 t2 =>
                  cases hr2 : clsPass r2 with
                  | false =>
                    rw [List.takeWhile_cons_of_neg (by simp [hr2])] at htk2
                    cases htk2
                  | true =>
                    rw [List.takeWhile_cons_of_pos hr2] at htk2
                    injection htk2 with hr2e htk3
                    exact ⟨t2, by rw [hr1e, hr2e], htk3⟩
          obtain ⟨t2, hrest2, ht2⟩ := hrest
          subst hrest2
          rw [← h2]
          rw [List.takeWhile_cons_of_pos hclsc, hc0]
          cases f with
          | zero => simp at hlen
          | succ f1 =>
            rw [maskAKIAAux, akiaTest_ne_A _ (by decide)]
            simp only [Bool.false_eq_true, if_false]
            rw [List.takeWhile_cons_of_pos (by decide)]
            cases f1 with
            | zero => simp at hlen
            | succ f2 =>
              rw [maskAKIAAux, akiaTest_ne_A _ (by decide)]
              simp only [Bool.false_eq_true, if_false]
              rw [List.takeWhile_cons_of_pos (by decide)]
              rw [takeWhile_maskAKIAAux_of_nil f2 t2 ht2]
        | cons x a' =>
          rw [List.cons_append] at hsplit
          injection hsplit with h1 h2
          subst h1
          apply hrec a' c b h2 ?_ hclsc
          have : ((c0 :: a').reverse ++ o) = (a'.reverse ++ (c0 :: o)) := by
            simp
          rw [this] at hlbo
          exact hlbo

theorem clsKey_not_ws {c : Char} (h : clsKey c = true) : isWS c = false := by
  cases hw : isWS c
  · rfl
  · exfalso
    simp [isWS] at hw
    rcases hw with ((((rfl | rfl) | rfl) | rfl) | rfl) | rfl <;>
      exact absurd h (by decide)

theorem clsToken_not_ws {c : Char} (h : clsToken c = true) : isWS c = false := by
  cases hw : isWS c
  · rfl
  · exfalso
    simp [isWS] at hw
    rcases hw with ((((rfl | rfl) | rfl) | rfl) | rfl) | rfl <;>
      exact absurd h (by decide)

theorem clsPass_not_ws {c : Char} (h : clsPass c = true) : isWS c = false := by
  simp [clsPass] at h
  exact h.1.1

/-- C6 (core): the five-pass masking pipeline is idempotent on character
lists — its output contains no remaining (unmasked) match of any of the five
secret patterns, so running it again changes nothing. -/
theorem maskPipeline_idem (x : List Char) :
    maskPipeline (maskPipeline x) = maskPipeline x := by
  have t1 : ∀ o g, MskR o g → lbAccess o = true → lbAccess g = true :=
    fun _ _ h => lbAccess_transfer h
  have t2 : ∀ o g, MskR o g → lbSecret o = true → lbSecret g = true :=
    fun _ _ h => lbSecret_transfer h
  have t3 : ∀ o g, MskR o g → lbToken o = true → lbToken g = true :=
    fun _ _ h => lbToken_transfer h
  have cw1 : ∀ c, clsKey c = true → isWS c = false := fun _ => clsKey_not_ws
  have cw3 : ∀ c, clsToken c = true → isWS c = false := fun _ => clsToken_not_ws
  have cwP : ∀ c, clsPass c = true → isWS c = false := fun _ => clsPass_not_ws
  -- Pattern 1 has no match in the final output.
  have g1a : GoodFrom lbAccess clsKey [] (maskPass1 x) := by
    rw [maskPass1, maskLB]
    exact maskLBAux_self_good lbAccess clsKey (by decide) t1 cw1 _ _ [] []
      le_rfl MskR.nil
  have g1b : GoodFrom lbAccess clsKey [] (maskPass2 (maskPass1 x)) := by
    rw [maskPass2, maskLB]
    exact maskLBAux_preserve lbAccess clsKey lbSecret clsKey (by decide) t1 cw1
      _ _ [] [] le_rfl MskR.nil g1a
  have g1c : GoodFrom lbAccess clsKey []
      (maskPass3 (maskPass2 (maskPass1 x))) := by
    rw [maskPass3, maskLB]
    exact maskLBAux_preserve lbAccess clsKey lbToken clsToken (by decide) t1 cw3
      _ _ [] [] le_rfl MskR.nil g1b
  have g1d : GoodFrom lbAccess clsKey []
      (maskPass4 (maskPass3 (maskPass2 (maskPass1 x)))) := by
    rw [maskPass4, maskLB]
    exact maskLBAux_preserve lbAccess clsKey lbPassword clsPass (by decide) t1
      cwP _ _ [] [] le_rfl MskR.nil g1c
  have g1e : GoodFrom lbAccess clsKey [] (maskPipeline x) := by
    rw [maskPipeline, maskAKIA]
    exact maskAKIAAux_preserve lbAccess clsKey (by decide) t1 _ _ [] []
      le_rfl MskR.nil g1d
  -- Pattern 2.
  have g2b : GoodFrom lbSecret clsKey [] (maskPass2 (maskPass1 x)) := by
    rw [maskPass2, maskLB]
    exact maskLBAux_self_good lbSecret clsKey (by decide) t2 cw1 _ _ [] []
      le_rfl MskR.nil
  have g2c : GoodFrom lbSecret clsKey []
      (maskPass3 (maskPass2 (maskPass1 x))) := by
    rw [maskPass3, maskLB]
    exact maskLBAux_preserve lbSecret clsKey lbToken clsToken (by decide) t2 cw3
      _ _ [] [] le_rfl MskR.nil g2b
  have g2d : GoodFrom lbSecret clsKey []
      (maskPass4 (maskPass3 (maskPass2 (maskPass1 x)))) := by
    rw [maskPass4, maskLB]
    exact maskLBAux_preserve lbSecret clsKey lbPassword clsPass (by decide) t2
      cwP _ _ [] [] le_rfl MskR.nil g2c
  have g2e : GoodFrom lbSecret clsKey [] (maskPipeline x) := by
    rw [maskPipeline, maskAKIA]
    exact maskAKIAAux_preserve lbSecret clsKey (by decide) t2 _ _ [] []
      le_rfl MskR.nil g2d
  -- Pattern 3.
  have g3c : GoodFrom lbToken clsToken []
      (maskPass3 (maskPass2 (maskPass1 x))) := by
    rw [maskPass3, maskLB]
    exact maskLBAux_self_good lbToken clsToken (by decide) t3 cw3 _ _ [] []
      le_rfl MskR.nil
  have g3d : GoodFrom lbToken clsToken []
      (maskPass4 (maskPass3 (maskPass2 (maskPass1 x)))) := by
    rw [maskPass4, maskLB]
    exact maskLBAux_preserve lbToken clsToken lbPassword clsPass (by decide) t3
      cwP _ _ [] [] le_rfl MskR.nil g3c
  have g3e : GoodFrom lbToken clsToken [] (maskPipeline x) := by
    rw [maskPipeline, maskAKIA]
    exact maskAKIAAux_preserve lbToken clsToken (by decide) t3 _ _ [] []
      le_rfl MskR.nil g3d
  -- Pattern 4.
  have g4d : GoodFrom4 []
      (maskPass4 (maskPass3 (maskPass2 (maskPass1 x)))) := by
    rw [maskPass4, maskLB]
    exact maskLBAux_self_good4 _ _ [] [] le_rfl MskR.nil
  have g4e : GoodFrom4 [] (maskPipeline x) := by
    rw [maskPipeline, maskAKIA]
    exact maskAKIAAux_preserve4 _ _ [] [] le_rfl MskR.nil g4d
  -- Pattern 5.
  have g5e : Good5 (maskPipeline x) := by
    rw [maskPipeline, maskAKIA]
    exact maskAKIAAux_self_good _ _ le_rfl
  -- A fully match-free string is a fixed point of every pass.
  have i1 : maskPass1 (maskPipeline x) = maskPipeline x := by
    rw [maskPass1, maskLB]
    exact maskLBAux_id lbAccess clsKey _ _ [] le_rfl g1e
  have i2 : maskPass2 (maskPipeline x) = maskPipeline x := by
    rw [maskPass2, maskLB]
    exact maskLBAux_id lbSecret clsKey _ _ [] le_rfl g2e
  have i3 : maskPass3 (maskPipeline x) = maskPipeline x := by
    rw [maskPass3, maskLB]
    exact maskLBAux_id lbToken clsToken _ _ [] le_rfl g3e
  have i4 : maskPass4 (maskPipeline x) = maskPipeline x := by
    rw [maskPass4, maskLB]
    exact maskLBAux_id4 _ _ [] le_rfl g4e
  have i5 : maskAKIA (maskPipeline x) = maskPipeline x := by
    rw [maskAKIA]
    exact maskAKIAAux_id _ _ le_rfl g5e
  calc maskPipeline (maskPipeline x)
      = maskAKIA (maskPass4 (maskPass3 (maskPass2 (maskPass1
          (maskPipeline x))))) := by rw [maskPipeline]
    _ = maskPipeline x := by rw [i1, i2, i3, i4, i5]

/-- C6: secret redaction is idempotent and total — masking twice yields the
masked text unchanged (equivalently: the masked text contains no unmasked
occurrence of any recognized secret pattern) — and the code string handed to
prompt construction by the remote review is exactly the masked code. -/
theorem maskSensitive_idempotent (s filePath language standards : String) :
    maskSensitive (maskSensitive s) = maskSensitive s ∧
    promptForReview filePath s language standards =
      buildPrompt filePath (maskSensitive s) language standards := by
  constructor
  · have h : maskSensitive (maskSensitive s) =
        String.mk (maskPipeline (maskPipeline s.data)) := rfl
    rw [h, maskPipeline_idem]
    rfl
  · rfl
